import Mathlib

/-!
A verification development for the `mtreconstruct` program
(`src/main.rs`): a multithreaded reconstructor that reassembles a file
from fragments named `<base>.FRAG-<ordinal>` by building a batched merge
tree of concatenation tasks.

The filesystem is modelled as a partial map from path strings to byte
contents.  The concatenation primitive `cat`, the leaf-batch builder,
the level-fold of the merge-tree scheduler, the retry loop, the
batch-size argument check, and the regex/split based fragment
recognition are each translated from the Rust source.  Byte contents
are abstracted as lists of naturals; paths are strings (the empty
string models the `String::default()` placeholder produced by popping
an exhausted stack, exactly as in the source).
-/

namespace MtRec

/-- Byte content of a file, abstracted as a list of bytes. -/
abbrev Bytes := List Nat

/-- A filesystem: a partial map from paths to file contents.
`none` means the path does not exist. -/
abbrev FS := String → Option Bytes

/-! ### Ceiling division helper -/

/-- Ceiling division `⌈n / b⌉` on naturals. -/
def cdiv (n b : Nat) : Nat := (n + b - 1) / b

theorem cdiv_le_iff {b : Nat} (hb : 0 < b) (n k : Nat) :
    cdiv n b ≤ k ↔ n ≤ k * b := by
  unfold cdiv
  rw [Nat.div_le_iff_le_mul_add_pred hb, Nat.mul_comm b k]
  omega

theorem lt_cdiv_iff {b : Nat} (hb : 0 < b) (n k : Nat) :
    k < cdiv n b ↔ k * b < n := by
  have h := cdiv_le_iff hb n k
  omega

theorem cdiv_cdiv {a b : Nat} (ha : 0 < a) (hb : 0 < b) (n : Nat) :
    cdiv (cdiv n a) b = cdiv n (a * b) := by
  have hab : 0 < a * b := Nat.mul_pos ha hb
  apply Nat.le_antisymm
  · rw [cdiv_le_iff hb]
    have h2 := (cdiv_le_iff hab n (cdiv n (a * b))).mp (le_refl _)
    rw [cdiv_le_iff ha]
    calc n ≤ cdiv n (a * b) * (a * b) := h2
    _ = cdiv n (a * b) * b * a := by ring
  · rw [cdiv_le_iff hab]
    have h1 := (cdiv_le_iff ha n (cdiv n a)).mp (le_refl _)
    have h2 := (cdiv_le_iff hb (cdiv n a) (cdiv (cdiv n a) b)).mp (le_refl _)
    calc n ≤ cdiv n a * a := h1
    _ ≤ cdiv (cdiv n a) b * b * a := Nat.mul_le_mul_right a h2
    _ = cdiv (cdiv n a) b * (a * b) := by ring

theorem cdiv_eq_zero_iff {b : Nat} (hb : 0 < b) (n : Nat) :
    cdiv n b = 0 ↔ n = 0 := by
  have h := cdiv_le_iff hb n 0
  omega

theorem cdiv_one_of_le {b : Nat} (hb : 0 < b) {n : Nat} (h1 : 1 ≤ n)
    (h2 : n ≤ b) : cdiv n b = 1 := by
  have ha := (cdiv_le_iff hb n 1).mpr (by omega)
  have hz := (cdiv_eq_zero_iff hb n)
  omega

theorem cdiv_lt_self {n b : Nat} (hn : 2 ≤ n) (hb : 2 ≤ b) :
    cdiv n b < n := by
  have hb0 : 0 < b := by omega
  have h1 : n ≤ (n - 1) * b := by
    have h2 : (n - 1) * 2 ≤ (n - 1) * b := Nat.mul_le_mul_left _ hb
    omega
  have := (cdiv_le_iff hb0 n (n - 1)).mpr h1
  omega

theorem cdiv_succ_chunk {b : Nat} (hb : 0 < b) (n : Nat) (hn : 0 < n) :
    cdiv n b = 1 + cdiv (n - b) b := by
  rcases Nat.le_total n b with h | h
  · rw [cdiv_one_of_le hb hn h, show n - b = 0 by omega]
    have hz : cdiv 0 b = 0 := by
      unfold cdiv
      exact Nat.div_eq_of_lt (by omega)
    omega
  · have h1 : n - b + b = n := by omega
    unfold cdiv
    rw [show n + b - 1 = (n - b + b - 1) + b by omega,
      Nat.add_div_right _ hb]
    omega

/-! ### The concatenation primitive (`cat`, src/main.rs lines 114-144)

`cat(files)`:
* if the list has at most one entry, succeed with no effect;
* if the first entry is the empty placeholder string, succeed with no
  effect;
* open the first file for append — an error if it does not exist;
* for each later entry: skip it if it is empty or does not exist,
  otherwise read its content, append it to the first file and delete it.
-/

/-- One iteration of `cat`'s loop body for a single secondary file `f`:
skip the placeholder / missing file, otherwise append its content to
`leader` and remove `f`. -/
def catStep (leader : String) (fs : FS) (f : String) : FS :=
  if f = "" then fs
  else
    match fs f with
    | none => fs
    | some c => fun p =>
        if p = f then none
        else if p = leader then (fs leader).map (· ++ c)
        else fs p

/-- The concatenation primitive, translated from `cat` in the source.
Returns `none` when the open-for-append of the first file fails. -/
def cat (fs : FS) (files : List String) : Option FS :=
  if files.length ≤ 1 then some fs
  else if files.headD "" = "" then some fs
  else
    match fs (files.headD "") with
    | none => none
    | some _ => some ((files.drop 1).foldl (catStep (files.headD "")) fs)

/-! Basic properties of `catStep`. -/

theorem catStep_apply_of_ne (leader : String) (fs : FS) (f p : String)
    (hpf : p ≠ f) (hpl : p ≠ leader) : catStep leader fs f p = fs p := by
  unfold catStep
  split
  · rfl
  · cases hfs : fs f with
    | none => rfl
    | some c => simp [hpf, hpl]

theorem catStep_skip (leader : String) (fs : FS) (f : String)
    (h : f = "" ∨ fs f = none) : catStep leader fs f = fs := by
  unfold catStep
  rcases h with h | h
  · simp [h]
  · split
    · rfl
    · rw [h]

theorem catStep_none (leader : String) (fs : FS) (f p : String)
    (hp : fs p = none) (hpl : p ≠ leader) : catStep leader fs f p = none := by
  by_cases hpf : p = f
  · subst hpf
    rw [catStep_skip leader fs p (Or.inr hp)]
    exact hp
  · rw [catStep_apply_of_ne leader fs f p hpf hpl]
    exact hp

/-- The fold of `catStep` never resurrects a missing file other than the
leader. -/
theorem foldl_catStep_none (leader : String) (rest : List String) (fs : FS)
    (p : String) (hp : fs p = none) (hpl : p ≠ leader) :
    rest.foldl (catStep leader) fs p = none := by
  induction rest generalizing fs with
  | nil => exact hp
  | cons r rs ih =>
      exact ih (catStep leader fs r) (catStep_none leader fs r p hp hpl)

/-! ### Claims C10 and C7: degenerate `cat` and silent skip -/

/-- C10: `cat` on a degenerate input is a successful no-op: for every
list with at most one entry, and for every list whose first entry is the
empty placeholder string, `cat` returns success with the filesystem
completely unchanged. -/
theorem C10_cat_degenerate_noop (fs : FS) (files : List String)
    (h : files.length ≤ 1 ∨ files.headD "" = "") : cat fs files = some fs := by
  unfold cat
  rcases h with h | h
  · simp [h]
  · by_cases hlen : files.length ≤ 1
    · simp [hlen]
    · rw [if_neg hlen, if_pos h]

theorem C10_cat_degenerate_noop_witness :
    cat (fun _ => none) ["a"] = some (fun _ => none) :=
  C10_cat_degenerate_noop _ _ (Or.inl (by decide))

/-- C7: a subsequent (non-first) entry that does not exist on the
filesystem is skipped without producing an error: `cat` on a list with
the missing entry `f` behaves exactly as `cat` on the list with `f`
removed, so it continues with the remaining entries, can still succeed,
and the missing entry contributes no bytes to the leader. -/
theorem C7_cat_skips_missing (fs : FS) (x f : String) (l1 l2 : List String)
    (hf : fs f = none) (hne : l1 ++ l2 ≠ []) :
    cat fs (x :: (l1 ++ f :: l2)) = cat fs (x :: (l1 ++ l2)) := by
  unfold cat
  have hlen1 : ¬ (x :: (l1 ++ f :: l2)).length ≤ 1 := by
    simp [List.length_append]
  have hlen2 : ¬ (x :: (l1 ++ l2)).length ≤ 1 := by
    have : l1 ++ l2 ≠ [] := hne
    have : 0 < (l1 ++ l2).length := List.length_pos.mpr this
    simp only [List.length_cons]
    omega
  simp only [hlen1, hlen2, if_false, List.headD_cons]
  by_cases hx : x = ""
  · simp [hx]
  · simp only [hx, if_false]
    cases hfsx : fs x with
    | none => rfl
    | some c =>
        have hfx : f ≠ x := by
          intro h
          rw [h, hfsx] at hf
          exact Option.noConfusion hf
        simp only [List.drop_one, List.tail_cons]
        have hmid : (l1 ++ f :: l2).foldl (catStep x) fs =
            (l1 ++ l2).foldl (catStep x) fs := by
          rw [List.foldl_append, List.foldl_append]
          have h1 : (l1.foldl (catStep x) fs) f = none :=
            foldl_catStep_none x l1 fs f hf hfx
          simp only [List.foldl_cons]
          rw [catStep_skip x _ f (Or.inr h1)]
        rw [hmid]

theorem C7_cat_skips_missing_witness :
    cat (fun p => if p = "a" then some [1] else if p = "b" then some [2] else none)
        ["a", "c", "b"] =
      cat (fun p => if p = "a" then some [1] else if p = "b" then some [2] else none)
        ["a", "b"] :=
  C7_cat_skips_missing _ "a" "c" [] ["b"] (by decide) (by decide)

/-! ### Claim C6: the retry wrapper (src/main.rs lines 180-195 and 218-236)

The dispatched thread body is `loop { match cat(&files) { Ok(_) => break,
Err(_) => sleep(...) } }`: it re-invokes `cat` on the same file list until
one invocation succeeds.  Whether an invocation succeeds depends on the
transient environment, modelled by an oracle `result k` giving the outcome
of the `k`-th invocation (0-based).  `retryRun result fuel k` runs the loop
starting at invocation `k` for at most `fuel` further invocations and
returns the total number of invocations performed when the loop exits. -/

def retryRun (result : Nat → Bool) : Nat → Nat → Option Nat
  | 0, _ => none
  | fuel + 1, k => if result k then some (k + 1) else retryRun result fuel (k + 1)

theorem retryRun_stable (result : Nat → Bool) (N : Nat)
    (hfail : ∀ k, k < N → result k = false) (hsucc : result N = true) :
    ∀ fuel start, start ≤ N → N - start < fuel →
      retryRun result fuel start = some (N + 1) := by
  intro fuel
  induction fuel with
  | zero => intro start h1 h2; omega
  | succ fuel ih =>
      intro start h1 h2
      by_cases hs : start = N
      · subst hs
        simp [retryRun, hsucc]
      · have hlt : start < N := by omega
        simp [retryRun, hfail start hlt]
        exact ih (start + 1) (by omega) (by omega)

theorem retryRun_success_exit (result : Nat → Bool) :
    ∀ fuel k m, retryRun result fuel k = some m →
      1 ≤ m ∧ result (m - 1) = true := by
  intro fuel
  induction fuel with
  | zero => intro k m h; exact absurd h (by simp [retryRun])
  | succ fuel ih =>
      intro k m h
      unfold retryRun at h
      by_cases hr : result k
      · simp [hr] at h
        constructor
        · omega
        · rw [show m - 1 = k by omega]
          exact hr
      · simp [hr] at h
        exact ih (k + 1) m h

/-- C6: the retry wrapper repeats `cat` until success and never gives
up.  If the first `N` invocations fail and invocation index `N` (the
`N+1`-st call) succeeds, the loop performs exactly `N + 1` invocations
and then terminates successfully (for any sufficient fuel bound); and
whenever the loop terminates, the last invocation performed was a
successful one — it never terminates after a failed invocation. -/
theorem C6_retry_until_success (result : Nat → Bool) (N : Nat)
    (hfail : ∀ k, k < N → result k = false) (hsucc : result N = true) :
    (∀ fuel, N < fuel → retryRun result fuel 0 = some (N + 1)) ∧
      (∀ fuel k m, retryRun result fuel k = some m →
        1 ≤ m ∧ result (m - 1) = true) := by
  constructor
  · intro fuel hf
    exact retryRun_stable result N hfail hsucc fuel 0 (by omega) (by omega)
  · exact retryRun_success_exit result

theorem C6_retry_until_success_witness :
    retryRun (fun k => k == 2) 5 0 = some 3 ∧ (fun k => k == 2) (3 - 1) = true := by
  refine ⟨(C6_retry_until_success (fun k => k == 2) 2 (by decide) (by decide)).1
    5 (by omega), by decide⟩

/-! ### Claim C8: batch-size argument validation
(`parse_args`, src/main.rs lines 95-106, and `NUM_CAT_ONCE`, lines 15-16)

`parse_args` reads the `-n` (long form `--number`) option; when present it parses the
value and rejects anything outside `2..=100` with an `Input number error`
before any reconstruction begins, otherwise it stores the value in
`NUM_CAT_ONCE`; when absent, `NUM_CAT_ONCE` keeps its default of 32. -/

def NUM_CAT_ONCE_DEFATLT : Nat := 32

/-- The batch-size validation of `parse_args`: `none` models an absent
`--number` option, `some n` a supplied (successfully parsed) value.
Returns the resulting `NUM_CAT_ONCE` value, or the input error. -/
def parseNumberArg (supplied : Option Nat) : Except String Nat :=
  match supplied with
  | none => Except.ok NUM_CAT_ONCE_DEFATLT
  | some n =>
      if 2 ≤ n ∧ n ≤ 100 then Except.ok n
      else Except.error "Input number error"

/-- C8: the batch-size parameter accepts exactly the integers 2
through 100 and defaults to 32: every supplied value in `2..=100` becomes
the configured batch size, every supplied value outside that range is an
input error (so reconstruction never starts, since `main` propagates the
error before reconstructing anything), and an absent option yields 32. -/
theorem C8_batch_size_validation :
    (∀ n, 2 ≤ n → n ≤ 100 → parseNumberArg (some n) = Except.ok n) ∧
      (∀ n, n < 2 ∨ 100 < n →
        parseNumberArg (some n) = Except.error "Input number error") ∧
      parseNumberArg none = Except.ok 32 := by
  refine ⟨fun n h1 h2 => ?_, fun n h => ?_, rfl⟩
  · simp [parseNumberArg, h1, h2]
  · have : ¬ (2 ≤ n ∧ n ≤ 100) := by omega
    simp [parseNumberArg, this]

theorem C8_batch_size_validation_witness :
    parseNumberArg (some 101) = Except.error "Input number error" ∧
      parseNumberArg (some 2) = Except.ok 2 :=
  ⟨C8_batch_size_validation.2.1 101 (Or.inr (by omega)),
    C8_batch_size_validation.1 2 (by omega) (by omega)⟩

/-! ### Claim C3: fragment recognition and target derivation
(`main`, src/main.rs lines 269-284)

`main` selects candidate paths with `Regex::new(r".FRAG-")` and
`re.is_match(s)`; in that regex the leading `.` is a wildcard matching
any character except a newline, so a path is selected whenever `FRAG-`
occurs preceded by at least one (non-newline) character — the literal
dot is NOT required.  The grouping key, however, is computed with
`i.split(".FRAG-").next()`, where `".FRAG-"` is a plain string pattern:
the portion of the path before the first occurrence of the literal
substring `.FRAG-`, or the whole path when that literal never occurs.
Paths are modelled as lists of characters here. -/

/-- The five characters `FRAG-` (the literal part of the regex). -/
def frag5 : List Char := ['F', 'R', 'A', 'G', '-']

/-- The six characters of the literal split pattern `.FRAG-`. -/
def fragLit : List Char := '.' :: frag5

/-- `regexMatchAt s i`: the regex `.FRAG-` matches with its `FRAG-` part
starting at position `i` — some character other than a newline stands at
`i - 1` and `FRAG-` stands at `i`. -/
def regexMatchAt (s : List Char) (i : Nat) : Bool :=
  decide (1 ≤ i) && decide ((s.drop i).take 5 = frag5) &&
    decide (s.getD (i - 1) '\n' ≠ '\n')

/-- `re.is_match(s)` for the regex `.FRAG-`. -/
def regexIsMatch (s : List Char) : Bool :=
  (List.range (s.length + 1)).any (regexMatchAt s)

/-- The literal substring `.FRAG-` occurs at position `i` of `s`. -/
def litAt (s : List Char) (i : Nat) : Bool :=
  decide ((s.drop i).take 6 = fragLit)

/-- The path contains the literal substring `.FRAG-` somewhere. -/
def containsLit (s : List Char) : Bool :=
  (List.range (s.length + 1)).any (litAt s)

/-- Position of the first occurrence of the literal `.FRAG-`. -/
def firstLitIdx (s : List Char) : Option Nat :=
  (List.range (s.length + 1)).find? (litAt s)

/-- `s.split(".FRAG-").next().unwrap()`: everything before the first
occurrence of the literal `.FRAG-`, or the whole path if none. -/
def splitKey (s : List Char) : List Char :=
  match firstLitIdx s with
  | none => s
  | some i => s.take i

/-- `find?` over `List.range` returns the least satisfying index. -/
theorem find?_range_least {p : Nat → Bool} {n i : Nat}
    (h : (List.range n).find? p = some i) :
    p i = true ∧ ∀ j, j < i → p j = false := by
  induction n with
  | zero => simp [List.range_zero] at h
  | succ n ih =>
      rw [List.range_succ, List.find?_append] at h
      cases hfind : (List.range n).find? p with
      | some a =>
          rw [hfind] at h
          simp only [Option.or_some] at h
          exact ih (hfind.trans (by rw [h]))
      | none =>
          rw [hfind] at h
          simp only [Option.none_or] at h
          have hn : ∀ x ∈ List.range n, ¬ p x = true := List.find?_eq_none.mp hfind
          have : p n = true ∧ i = n := by
            by_cases hp : p n
            · simp [List.find?, hp] at h
              exact ⟨hp, h.symm⟩
            · simp [List.find?, Bool.of_not_eq_true hp] at h
          obtain ⟨hpn, rfl⟩ := this
          refine ⟨hpn, fun j hj => ?_⟩
          have := hn j (List.mem_range.mpr hj)
          exact Bool.of_not_eq_true this

theorem regexIsMatch_iff (s : List Char) :
    regexIsMatch s = true ↔
      ∃ a b, ∃ c : Char, c ≠ '\n' ∧ s = a ++ c :: frag5 ++ b := by
  constructor
  · intro h
    obtain ⟨i, hi, hmatch⟩ := List.any_eq_true.mp h
    unfold regexMatchAt at hmatch
    simp only [Bool.and_eq_true, decide_eq_true_eq] at hmatch
    obtain ⟨⟨h1, h2⟩, h3⟩ := hmatch
    have hlen5 : (s.drop i).length ≥ 5 := by
      have := congrArg List.length h2
      simp only [List.length_take, frag5, List.length_cons] at this
      omega
    have hile : i + 5 ≤ s.length := by
      rw [List.length_drop] at hlen5
      omega
    have him1 : i - 1 < s.length := by omega
    have hdrop : s.drop i = frag5 ++ s.drop (i + 5) := by
      conv_lhs => rw [← List.take_append_drop 5 (s.drop i)]
      rw [h2, List.drop_drop]
    refine ⟨s.take (i - 1), s.drop (i + 5), s[i - 1], ?_, ?_⟩
    · rw [List.getD_eq_getElem?_getD, List.getElem?_eq_getElem him1] at h3
      simpa using h3
    · conv_lhs => rw [← List.take_append_drop (i - 1) s]
      rw [List.drop_eq_getElem_cons him1, show i - 1 + 1 = i by omega, hdrop]
      simp
  · rintro ⟨a, b, c, hc, rfl⟩
    apply List.any_eq_true.mpr
    refine ⟨a.length + 1, List.mem_range.mpr ?_, ?_⟩
    · simp only [List.length_append, List.length_cons, frag5]
      omega
    · unfold regexMatchAt
      simp only [Bool.and_eq_true, decide_eq_true_eq]
      refine ⟨⟨by omega, ?_⟩, ?_⟩
      · have : (a ++ c :: frag5 ++ b).drop (a.length + 1) = frag5 ++ b := by
          rw [show a ++ c :: frag5 ++ b = (a ++ [c]) ++ (frag5 ++ b) by simp]
          rw [List.drop_append_of_le_length (by simp)]
          simp
        rw [this, List.take_left' (by simp [frag5])]
      · have : (a ++ c :: frag5 ++ b).getD (a.length + 1 - 1) '\n' = c := by
          rw [List.getD_eq_getElem?_getD, show a.length + 1 - 1 = a.length by omega]
          rw [show a ++ c :: frag5 ++ b = a ++ (c :: (frag5 ++ b)) by simp]
          rw [List.getElem?_append_right (le_refl a.length)]
          simp
        rw [this]
        exact hc

theorem containsLit_imp_regex (s : List Char) (h : containsLit s = true) :
    regexIsMatch s = true := by
  obtain ⟨i, hi, hlit⟩ := List.any_eq_true.mp h
  unfold litAt at hlit
  simp only [decide_eq_true_eq] at hlit
  have hdrop : s.drop i = fragLit ++ s.drop (i + 6) := by
    conv_lhs => rw [← List.take_append_drop 6 (s.drop i)]
    rw [hlit, List.drop_drop]
  apply (regexIsMatch_iff s).mpr
  refine ⟨s.take i, s.drop (i + 6), '.', by decide, ?_⟩
  conv_lhs => rw [← List.take_append_drop i s, hdrop]
  simp [fragLit]

/-- C3 (corrected): the characterization of recognition and target
derivation actually implemented.  A path is selected if and only if
`FRAG-` occurs preceded by at least one character other than a newline
(the `.` in `Regex::new(r".FRAG-")` is a wildcard); every path
containing the literal `.FRAG-` is selected, but not conversely.  The
grouping key is the portion of the path before the first occurrence of
the literal substring `.FRAG-` when that literal occurs, and the whole
path otherwise. -/
theorem C3_recognition_characterization (s : List Char) :
    (regexIsMatch s = true ↔
      ∃ a b, ∃ c : Char, c ≠ '\n' ∧ s = a ++ c :: frag5 ++ b) ∧
      (containsLit s = true → regexIsMatch s = true) ∧
      (∀ i, firstLitIdx s = some i →
        litAt s i = true ∧ (∀ j, j < i → litAt s j = false) ∧
          splitKey s = s.take i) ∧
      (firstLitIdx s = none → splitKey s = s) := by
  refine ⟨regexIsMatch_iff s, containsLit_imp_regex s, ?_, ?_⟩
  · intro i hfind
    have := find?_range_least hfind
    exact ⟨this.1, this.2, by simp [splitKey, hfind]⟩
  · intro hnone
    simp [splitKey, hnone]

theorem C3_recognition_characterization_witness :
    splitKey ['a', '.', 'F', 'R', 'A', 'G', '-', '0'] = ['a'] := by
  have h := (C3_recognition_characterization
    ['a', '.', 'F', 'R', 'A', 'G', '-', '0']).2.2.1 1 (by decide)
  rw [h.2.2]
  decide

/-- C3 counterexample: the path `xFRAG-0` does not contain the literal
substring `.FRAG-`, yet the program's regex selects it — so "a path is
recognized iff it contains the literal `.FRAG-`" is false on the code. -/
theorem C3_claim_counterexample :
    regexIsMatch ['x', 'F', 'R', 'A', 'G', '-', '0'] = true ∧
      containsLit ['x', 'F', 'R', 'A', 'G', '-', '0'] = false := by decide

/-! ### Claim C9: grouping is insensitive to discovery order
(`main`, src/main.rs lines 278-289)

`main` inserts each selected path into a `HashMap` keyed by
`i.split(".FRAG-").next()` and then sorts each group with
`val.sort_unstable()`.  The group finally associated with a key `k` is
therefore the sorted list of all discovered paths whose split key is
`k`; sorting is by the total lexicographic order on paths. -/

/-- The fragment list a grouping key `k` is mapped to, after sorting:
all discovered paths whose split key is `k`, in ascending order. -/
def sortedGroup (paths : List (List Char)) (k : List Char) : List (List Char) :=
  List.insertionSort (· ≤ ·) (paths.filter (fun p => decide (splitKey p = k)))

/-- C9: fragment grouping is insensitive to discovery order: two
permutations of the same finite list of discovered fragment paths give
identical mappings from base filename to sorted fragment list. -/
theorem C9_grouping_order_insensitive (paths₁ paths₂ : List (List Char))
    (hperm : paths₁.Perm paths₂) (k : List Char) :
    sortedGroup paths₁ k = sortedGroup paths₂ k := by
  unfold sortedGroup
  apply List.eq_of_perm_of_sorted (r := (· ≤ · : List Char → List Char → Prop))
  · have h1 := List.perm_insertionSort (· ≤ · : List Char → List Char → Prop)
      (paths₁.filter (fun p => decide (splitKey p = k)))
    have h2 := hperm.filter (fun p => decide (splitKey p = k))
    have h3 := List.perm_insertionSort (· ≤ · : List Char → List Char → Prop)
      (paths₂.filter (fun p => decide (splitKey p = k)))
    exact (h1.trans h2).trans h3.symm
  · exact List.sorted_insertionSort _ _
  · exact List.sorted_insertionSort _ _

theorem C9_grouping_order_insensitive_witness :
    sortedGroup [['b', '1'], ['a', '2'], ['a', '1']]
        (['a', '1'] : List Char) =
      sortedGroup [['a', '1'], ['b', '1'], ['a', '2']]
        (['a', '1'] : List Char) :=
  C9_grouping_order_insensitive _ _ (by decide) _

/-! ### The merge-tree scheduler (`reconstruct`, src/main.rs lines 162-261)

`reconstruct` reverses the sorted fragment list into a working stack,
pops batches of `B = NUM_CAT_ONCE` fragments into leaf tasks (padding an
exhausted stack with the default empty string and stopping once a
batch's first entry is the placeholder), then repeatedly reverses the
task list and pops batches of `B` tasks into parent tasks over the
children's leader files until at most one task remains. -/

/-- `Vec::pop().unwrap_or(d)` on a stack whose top is the last element:
the popped value and the remaining stack. -/
def popD (l : List α) (d : α) : α × List α := (l.getLastD d, l.dropLast)

/-- The `for _ in 0..num_cat_once` loop that pops `B` values from the
stack into a task's file list, using the default when exhausted. -/
def takeBatch (d : α) : Nat → List α → List α × List α
  | 0, stack => ([], stack)
  | b + 1, stack =>
      let t := popD stack d
      let t' := takeBatch d b t.2
      (t.1 :: t'.1, t'.2)

theorem takeBatch_nil (d : α) (B : Nat) :
    takeBatch d B ([] : List α) = (List.replicate B d, []) := by
  induction B with
  | zero => rfl
  | succ b ih => simp [takeBatch, popD, ih, List.replicate_succ]

theorem takeBatch_length_snd (d : α) (B : Nat) (s : List α) :
    ((takeBatch d B s).2).length = s.length - B := by
  induction B generalizing s with
  | zero => simp [takeBatch]
  | succ b ih =>
      simp only [takeBatch, popD, ih, List.length_dropLast]
      omega

theorem dropLast_reverse (l : List α) : l.reverse.dropLast = l.tail.reverse := by
  cases l with
  | nil => rfl
  | cons x xs => simp [List.reverse_cons, List.dropLast_concat]

theorem getLastD_reverse (l : List α) (d : α) :
    l.reverse.getLastD d = l.headD d := by
  rw [List.getLastD_eq_getLast?, List.getLast?_reverse, List.headD_eq_head?]

/-- Popping `B` items from the reversed list takes its first `B` items
(padded with the default) and leaves the rest (still reversed). -/
theorem takeBatch_reverse (d : α) (B : Nat) (l : List α) :
    takeBatch d B l.reverse =
      (l.take B ++ List.replicate (B - l.length) d, (l.drop B).reverse) := by
  induction B generalizing l with
  | zero => simp [takeBatch]
  | succ b ih =>
      cases l with
      | nil =>
          simp only [List.reverse_nil, takeBatch_nil, List.take_nil,
            List.drop_nil, List.length_nil, List.nil_append, List.reverse_nil]
          rw [Nat.sub_zero]
      | cons x xs =>
          simp only [takeBatch, popD, getLastD_reverse, dropLast_reverse,
            List.headD_cons, List.tail_cons, ih xs]
          simp [List.length_cons, Nat.succ_sub_succ]

/-- `(List.range B).map (l.getD · d)` is `l` truncated to `B` entries and
padded with the default. -/
theorem range_map_getD (d : α) (B : Nat) (l : List α) :
    (List.range B).map (fun k => l.getD k d) =
      l.take B ++ List.replicate (B - l.length) d := by
  induction l generalizing B with
  | nil =>
      simp only [List.getD_nil, List.take_nil, List.nil_append, Nat.sub_zero]
      have : (fun _ : Nat => d) = Function.const Nat d := rfl
      rw [this, List.map_const, List.length_range, List.length_nil, Nat.sub_zero]
  | cons x xs ih =>
      cases B with
      | zero => simp
      | succ b =>
          rw [List.range_succ_eq_map]
          simp only [List.map_cons, List.getD_cons_zero, List.map_map]
          have hcomp : (fun k => (x :: xs).getD k d) ∘ Nat.succ =
              fun k => xs.getD k d := by
            funext k
            simp [Function.comp, List.getD_cons_succ]
          rw [hcomp, ih b]
          simp [List.take_succ_cons, List.length_cons, Nat.succ_sub_succ]

/-- The batches of `B` entries (the last one padded with the default)
that the pop loops cut an `l`-entry level into. -/
def chunkPad (B : Nat) (d : α) (l : List α) : List (List α) :=
  (List.range (cdiv l.length B)).map
    (fun m => (List.range B).map (fun k => l.getD (m * B + k) d))

theorem chunkPad_length (B : Nat) (d : α) (l : List α) :
    (chunkPad B d l).length = cdiv l.length B := by
  simp [chunkPad]

theorem getD_range_map (f : Nat → α) (c m : Nat) (d : α) :
    ((List.range c).map f).getD m d = if m < c then f m else d := by
  rw [List.getD_eq_getElem?_getD, List.getElem?_map]
  split
  · rw [List.getElem?_range (by omega)]
    rfl
  · rw [List.getElem?_eq_none (by simp; omega)]
    rfl

theorem takeBatch_fst_nil_headD (d : α) (B : Nat) :
    ((takeBatch d B ([] : List α)).1).headD d = d := by
  rw [takeBatch_nil]
  cases B with
  | zero => rfl
  | succ b => simp [List.replicate_succ]

theorem takeBatch_head_ne (d : α) {B : Nat} {s : List α}
    (h : ¬ ((takeBatch d B s).1).headD d = d) : 1 ≤ B ∧ s ≠ [] := by
  constructor
  · by_contra hB
    have : B = 0 := by omega
    subst this
    exact h rfl
  · intro hs
    subst hs
    exact h (takeBatch_fst_nil_headD d B)

/-- The leaf-task loop of `reconstruct`: repeatedly pop a batch of `B`
fragments from the working stack into a new task's file list, stopping —
and discarding the task — once a batch's first entry is the empty
placeholder.  Returns the file lists of the dispatched leaf tasks. -/
def mkLeafTasksAux (B : Nat) (stack : List String) : List (List String) :=
  if h : ((takeBatch "" B stack).1).headD "" = "" then []
  else (takeBatch "" B stack).1 :: mkLeafTasksAux B (takeBatch "" B stack).2
termination_by stack.length
decreasing_by
  obtain ⟨hB, hs⟩ := takeBatch_head_ne "" h
  rw [takeBatch_length_snd]
  have := List.length_pos.mpr hs
  omega

/-- Leaf-task construction: `reconstruct` reverses the fragment list and
then runs the batch-popping loop. -/
def mkLeafTasks (B : Nat) (frags : List String) : List (List String) :=
  mkLeafTasksAux B frags.reverse

/-- Closed form of leaf-task construction: the fragment list is cut into
`⌈n/B⌉` chunks of exactly `B` entries, the last chunk padded with the
placeholder. -/
theorem mkLeafTasks_eq_chunkPad (B : Nat) (hB : 1 ≤ B) (frags : List String)
    (hne : "" ∉ frags) : mkLeafTasks B frags = chunkPad B "" frags := by
  unfold mkLeafTasks
  suffices h : ∀ fuel (l : List String), l.length ≤ fuel → "" ∉ l →
      mkLeafTasksAux B l.reverse = chunkPad B "" l by
    exact h frags.length frags (le_refl _) hne
  intro fuel
  induction fuel with
  | zero =>
      intro l hl _
      have : l = [] := List.length_eq_zero.mp (by omega)
      subst this
      rw [mkLeafTasksAux]
      simp only [List.reverse_nil, takeBatch_fst_nil_headD, dif_pos]
      simp only [chunkPad, List.length_nil, cdiv]
      rw [Nat.div_eq_of_lt (by omega)]
      simp
  | succ fuel ih =>
      intro l hl hmem
      cases l with
      | nil =>
          rw [mkLeafTasksAux]
          simp only [List.reverse_nil, takeBatch_fst_nil_headD, dif_pos]
          simp only [chunkPad, List.length_nil, cdiv]
          rw [Nat.div_eq_of_lt (by omega)]
          simp
      | cons x xs =>
          have hx : x ≠ "" := fun h => hmem (h ▸ List.mem_cons_self x xs)
          rw [mkLeafTasksAux]
          have htb := takeBatch_reverse "" B (x :: xs)
          have hhead : ((takeBatch "" B (x :: xs).reverse).1).headD "" = x := by
            rw [htb]
            cases B with
            | zero => omega
            | succ b => simp [List.take_succ_cons]
          rw [dif_neg (by rw [hhead]; exact hx)]
          have hdrop_mem : "" ∉ (x :: xs).drop B := fun hm =>
            hmem (List.mem_of_mem_drop hm)
          have hdrop_len : ((x :: xs).drop B).length ≤ fuel := by
            rw [List.length_drop]
            simp only [List.length_cons] at hl ⊢
            omega
          have hrec : mkLeafTasksAux B ((x :: xs).drop B).reverse =
              chunkPad B "" ((x :: xs).drop B) := ih _ hdrop_len hdrop_mem
          rw [show (takeBatch "" B (x :: xs).reverse).2 =
            ((x :: xs).drop B).reverse by rw [htb], hrec,
            show (takeBatch "" B (x :: xs).reverse).1 =
              (x :: xs).take B ++ List.replicate (B - (x :: xs).length) ""
              by rw [htb]]
          unfold chunkPad
          rw [show cdiv (x :: xs).length B =
            1 + cdiv ((x :: xs).length - B) B from
            cdiv_succ_chunk (by omega) _ (by simp), Nat.add_comm 1,
            List.range_succ_eq_map]
          simp only [List.map_cons, Nat.zero_mul, Nat.zero_add, List.map_map]
          congr 1
          · rw [range_map_getD]
          · rw [← List.length_drop B (x :: xs)]
            congr 1
            funext m
            simp only [Function.comp]
            congr 1
            funext k
            rw [List.getD_eq_getElem?_getD, List.getElem?_drop,
              ← List.getD_eq_getElem?_getD]
            congr 1
            rw [Nat.succ_eq_add_one]
            ring

/-- One reduction level (the inner loop of the section-task phase of
`reconstruct`): repeatedly pop up to `B` child tasks from the reversed
task stack — `pop().unwrap_or_else(Task::new)` pads an exhausted stack
with fresh empty tasks — push each child's leader file
(`files.first().unwrap_or("")`) into the parent's file list, and stop
once the stack is empty.  The `B = 0` guard only documents that the
source never runs this loop with a zero batch size (`parse_args`
enforces `2 ≤ B`). -/
def foldLevelAux (B : Nat) (stack : List (List String)) : List (List String) :=
  ((takeBatch [] B stack).1.map (fun c => c.headD "")) ::
    (if _h : (takeBatch [] B stack).2 = [] ∨ B = 0 then []
     else foldLevelAux B (takeBatch [] B stack).2)
termination_by stack.length
decreasing_by
  rw [takeBatch_length_snd]
  push_neg at _h
  have h2 : ((takeBatch [] B stack).2).length = stack.length - B :=
    takeBatch_length_snd [] B stack
  have h3 : ((takeBatch [] B stack).2).length ≠ 0 :=
    fun hz => _h.1 (List.length_eq_zero.mp hz)
  omega

/-- One reduction level: `reconstruct` reverses the current task list,
then runs the popping loop. -/
def foldLevel (B : Nat) (tasks : List (List String)) : List (List String) :=
  foldLevelAux B tasks.reverse

/-- Closed form of the level fold: the task list is cut into `⌈n/B⌉`
parent file lists, each holding `B` leader entries (the children's first
files, with the placeholder for padding tasks). -/
theorem foldLevel_eq_chunkPad (B : Nat) (hB : 1 ≤ B) (ts : List (List String))
    (hne : ts ≠ []) :
    foldLevel B ts = chunkPad B "" (ts.map (fun c => c.headD "")) := by
  unfold foldLevel
  suffices h : ∀ fuel (l : List (List String)), l.length ≤ fuel → l ≠ [] →
      foldLevelAux B l.reverse = chunkPad B "" (l.map (fun c => c.headD "")) by
    exact h ts.length ts (le_refl _) hne
  intro fuel
  induction fuel with
  | zero =>
      intro l hl hne'
      exact absurd (List.length_eq_zero.mp (by omega)) hne'
  | succ fuel ih =>
      intro l hl hne'
      rw [foldLevelAux]
      have htb := takeBatch_reverse ([] : List String) B l
      have hfst : (takeBatch [] B l.reverse).1 =
          l.take B ++ List.replicate (B - l.length) [] := by rw [htb]
      have hsnd : (takeBatch [] B l.reverse).2 = (l.drop B).reverse := by
        rw [htb]
      have hmap : ((takeBatch [] B l.reverse).1).map (fun c => c.headD "") =
          (l.map (fun c => c.headD "")).take B ++
            List.replicate (B - l.length) "" := by
        rw [hfst, List.map_append, List.map_take]
        congr 1
        simp [List.map_replicate]
      have hchunk0 : ((takeBatch [] B l.reverse).1).map (fun c => c.headD "") =
          (List.range B).map
            (fun k => (l.map (fun c => c.headD "")).getD k "") := by
        rw [range_map_getD, hmap, List.length_map]
      have hlen_pos : 0 < l.length := List.length_pos.mpr hne'
      unfold chunkPad
      rw [List.length_map,
        show cdiv l.length B = 1 + cdiv (l.length - B) B from
          cdiv_succ_chunk (by omega) _ hlen_pos,
        Nat.add_comm 1, List.range_succ_eq_map]
      simp only [List.map_cons, Nat.zero_mul, Nat.zero_add, List.map_map]
      by_cases hstop : (takeBatch [] B l.reverse).2 = [] ∨ B = 0
      · rw [dif_pos hstop]
        have hdrop : l.drop B = [] := by
          rcases hstop with hstop | hstop
          · rw [hsnd] at hstop
            exact List.reverse_eq_nil_iff.mp hstop
          · omega
        have hlenle : l.length ≤ B := by
          have := congrArg List.length hdrop
          rw [List.length_drop] at this
          simp at this
          omega
        rw [show l.length - B = 0 by omega]
        rw [show cdiv 0 B = 0 by
          unfold cdiv; exact Nat.div_eq_of_lt (by omega)]
        rw [List.range_zero, List.map_nil, hchunk0]
      · rw [dif_neg hstop]
        push_neg at hstop
        have hdropne : l.drop B ≠ [] := by
          intro hd
          exact hstop.1 (by rw [hsnd, hd, List.reverse_nil])
        have hdroplen : (l.drop B).length ≤ fuel := by
          rw [List.length_drop]
          have : 1 ≤ B := hB
          have := List.length_pos.mpr hdropne
          rw [List.length_drop] at this
          omega
        rw [hsnd, ih (l.drop B) hdroplen hdropne, hchunk0]
        congr 1
        unfold chunkPad
        rw [List.length_map, List.length_drop]
        congr 1
        funext m
        simp only [Function.comp]
        congr 1
        funext k
        rw [List.map_drop, List.getD_eq_getElem?_getD, List.getElem?_drop,
          ← List.getD_eq_getElem?_getD]
        congr 1
        rw [Nat.succ_eq_add_one]
        ring

theorem foldLevel_ne_nil (B : Nat) (ts : List (List String)) :
    foldLevel B ts ≠ [] := by
  unfold foldLevel
  rw [foldLevelAux]
  exact List.cons_ne_nil _ _

theorem foldLevel_length (B : Nat) (hB : 1 ≤ B) (ts : List (List String))
    (hne : ts ≠ []) : (foldLevel B ts).length = cdiv ts.length B := by
  rw [foldLevel_eq_chunkPad B hB ts hne, chunkPad_length, List.length_map]

/-- The outer reduction loop of `reconstruct`: while more than one task
remains, fold the current level into parent tasks.  The `B < 2` guard
only documents that the source never runs this loop with a degenerate
batch size (`parse_args` enforces `2 ≤ B`). -/
def reduceLevels (B : Nat) (tasks : List (List String)) : List (List String) :=
  if h : tasks.length ≤ 1 ∨ B < 2 then tasks
  else reduceLevels B (foldLevel B tasks)
termination_by tasks.length
decreasing_by
  push_neg at h
  have hne : tasks ≠ [] := by
    intro he
    rw [he] at h
    simp at h
  rw [foldLevel_length B (by omega) tasks hne]
  exact cdiv_lt_self (by omega) (by omega)

theorem reduceLevels_length_one (B : Nat) (hB : 2 ≤ B) :
    ∀ fuel (ts : List (List String)), ts.length ≤ fuel → ts ≠ [] →
      (reduceLevels B ts).length = 1 := by
  intro fuel
  induction fuel with
  | zero =>
      intro ts hlen hne
      exact absurd (List.length_eq_zero.mp (by omega)) hne
  | succ fuel ih =>
      intro ts hlen hne
      rw [reduceLevels]
      by_cases hstop : ts.length ≤ 1 ∨ B < 2
      · rw [dif_pos hstop]
        have := List.length_pos.mpr hne
        omega
      · rw [dif_neg hstop]
        push_neg at hstop
        have hlen2 : 2 ≤ ts.length := hstop.1
        have hflen : (foldLevel B ts).length = cdiv ts.length B :=
          foldLevel_length B (by omega) ts hne
        have hlt : cdiv ts.length B < ts.length := cdiv_lt_self hlen2 hB
        exact ih (foldLevel B ts) (by omega) (foldLevel_ne_nil B ts)

/-- C4: for every non-empty task list and batch size `B` in `2..=100`,
the level-reduction loop terminates with exactly one task; each fold of
a level of `n > 1` tasks yields the non-empty level of `⌈n/B⌉` parent
tasks (the batch-popping always pads with fresh empty tasks, so a fold
yields at least one parent), strictly fewer than `n`. -/
theorem C4_reduction_terminates (B : Nat) (hB2 : 2 ≤ B) (hB100 : B ≤ 100)
    (ts : List (List String)) (hne : ts ≠ []) :
    (reduceLevels B ts).length = 1 ∧
      (1 < ts.length →
        foldLevel B ts ≠ [] ∧ (foldLevel B ts).length = cdiv ts.length B ∧
          (foldLevel B ts).length < ts.length) := by
  refine ⟨reduceLevels_length_one B hB2 ts.length ts (le_refl _) hne,
    fun hgt => ⟨foldLevel_ne_nil B ts, foldLevel_length B (by omega) ts hne, ?_⟩⟩
  rw [foldLevel_length B (by omega) ts hne]
  exact cdiv_lt_self (by omega) hB2

theorem C4_reduction_terminates_witness :
    (reduceLevels 2 [["a"], ["b"], ["c"]]).length = 1 ∧
      (foldLevel 2 [["a"], ["b"], ["c"]]).length < 3 := by
  have h := C4_reduction_terminates 2 (by omega) (by omega)
    [["a"], ["b"], ["c"]] (by simp)
  exact ⟨h.1, by simpa using (h.2 (by simp)).2.2⟩

/-! ### The levels of the merge tree

`levelList B frags i` is the task list (each task being its file list)
present after `i` iterations of the reduction loop: level `0` is the
leaf level, and each further level folds the previous one as long as
more than one task remains. -/

def levelList (B : Nat) (frags : List String) : Nat → List (List String)
  | 0 => mkLeafTasks B frags
  | i + 1 =>
      if (levelList B frags i).length ≤ 1 then levelList B frags i
      else foldLevel B (levelList B frags i)

/-- The reduction loop visits exactly the levels: once some level has at
most one task, `reduceLevels` returns it. -/
theorem reduceLevels_eq_levelList (B : Nat) (hB : 2 ≤ B) (frags : List String)
    (i : Nat) (hstab : (levelList B frags i).length ≤ 1) :
    reduceLevels B (mkLeafTasks B frags) = levelList B frags i := by
  have key : ∀ j, reduceLevels B (levelList B frags j) =
      reduceLevels B (mkLeafTasks B frags) := by
    intro j
    induction j with
    | zero => rfl
    | succ j ih =>
        rw [← ih]
        have hdef : levelList B frags (j + 1) =
            if (levelList B frags j).length ≤ 1 then levelList B frags j
            else foldLevel B (levelList B frags j) := rfl
        rw [hdef]
        by_cases hle : (levelList B frags j).length ≤ 1
        · rw [if_pos hle]
        · rw [if_neg hle]
          conv_rhs => rw [reduceLevels]
          rw [dif_neg (by push_neg; omega)]
  rw [← key i, reduceLevels, dif_pos (Or.inl hstab)]

/-- The leaders (first files) present at the start of level `i`:
every `B^i`-th fragment. -/
def leadersAt (B : Nat) (frags : List String) (i : Nat) : List String :=
  (List.range (cdiv frags.length (B ^ i))).map (fun j => frags.getD (j * B ^ i) "")

theorem cdiv_antitone {a b : Nat} (ha : 0 < a) (hab : a ≤ b) (n : Nat) :
    cdiv n b ≤ cdiv n a := by
  rw [cdiv_le_iff (show 0 < b by omega)]
  have h1 := (cdiv_le_iff ha n (cdiv n a)).mp (le_refl _)
  exact le_trans h1 (Nat.mul_le_mul_left _ hab)

theorem cdiv_one_right (n : Nat) : cdiv n 1 = n := by
  unfold cdiv
  simp

theorem leadersAt_zero (B : Nat) (frags : List String) :
    leadersAt B frags 0 = frags := by
  unfold leadersAt
  rw [pow_zero, cdiv_one_right]
  have : (fun j => frags.getD (j * 1) "") = fun j => frags.getD j "" := by
    funext j
    rw [Nat.mul_one]
  rw [this, range_map_getD, List.take_length, Nat.sub_self, List.replicate_zero,
    List.append_nil]

theorem leadersAt_length (B : Nat) (frags : List String) (i : Nat) :
    (leadersAt B frags i).length = cdiv frags.length (B ^ i) := by
  simp [leadersAt]

theorem chunkPad_map_headD (B : Nat) (hB : 1 ≤ B) (d : α) (l : List α) :
    (chunkPad B d l).map (fun c => c.headD d) =
      (List.range (cdiv l.length B)).map (fun m => l.getD (m * B) d) := by
  unfold chunkPad
  rw [List.map_map]
  apply List.map_congr_left
  intro m _
  simp only [Function.comp]
  cases B with
  | zero => omega
  | succ b =>
      rw [List.range_succ_eq_map]
      simp

theorem leadersAt_succ (B : Nat) (hB : 1 ≤ B) (frags : List String) (i : Nat) :
    (chunkPad B "" (leadersAt B frags i)).map (fun c => c.headD "") =
      leadersAt B frags (i + 1) := by
  rw [chunkPad_map_headD B hB, leadersAt_length]
  unfold leadersAt
  rw [cdiv_cdiv (Nat.pos_pow_of_pos i (by omega)) (by omega), ← pow_succ]
  apply List.map_congr_left
  intro m hm
  rw [List.mem_range] at hm
  have hmB : m * B < cdiv frags.length (B ^ i) := by
    rw [lt_cdiv_iff (Nat.pos_pow_of_pos i (by omega))]
    rw [lt_cdiv_iff (Nat.pos_pow_of_pos (i + 1) (by omega))] at hm
    calc m * B * B ^ i = m * B ^ (i + 1) := by rw [pow_succ]; ring
    _ < frags.length := hm
  rw [getD_range_map, if_pos hmB]
  congr 1
  rw [pow_succ]
  ring

/-- The file list of the `j`-th task of level `i` in closed form: entry
`k` is the fragment at index `j * B ^ (i + 1) + k * B ^ i`, or the empty
placeholder when that index is out of range. -/
def taskFiles (B : Nat) (frags : List String) (i j : Nat) : List String :=
  (List.range B).map (fun k => frags.getD (j * B ^ (i + 1) + k * B ^ i) "")

/-- The closed form of the levels built by the scheduler: as long as the
previous level still had more than one task (the freshness condition),
level `i` consists of the `⌈n / B^(i+1)⌉` batched tasks over the level's
leaders. -/
theorem levelList_eq_chunkPad (B : Nat) (hB : 2 ≤ B) (frags : List String)
    (hmem : "" ∉ frags) :
    ∀ i, (i = 0 ∨ 2 ≤ cdiv frags.length (B ^ i)) →
      levelList B frags i = chunkPad B "" (leadersAt B frags i) := by
  intro i
  induction i with
  | zero =>
      intro _
      show mkLeafTasks B frags = _
      rw [mkLeafTasks_eq_chunkPad B (by omega) frags hmem, leadersAt_zero]
  | succ i ih =>
      intro hfresh
      have hfresh2 : 2 ≤ cdiv frags.length (B ^ (i + 1)) := by
        rcases hfresh with h | h
        · omega
        · exact h
      have hprev : 2 ≤ cdiv frags.length (B ^ i) := by
        refine le_trans hfresh2 (cdiv_antitone (Nat.pos_pow_of_pos i (by omega))
          (Nat.pow_le_pow_right (by omega) (by omega)) _)
      have ihh := ih (Or.inr hprev)
      have hlen : (levelList B frags i).length = cdiv frags.length (B ^ (i + 1)) := by
        rw [ihh, chunkPad_length, leadersAt_length,
          cdiv_cdiv (Nat.pos_pow_of_pos i (by omega)) (by omega), ← pow_succ]
      have hgt : ¬ (levelList B frags i).length ≤ 1 := by omega
      have hdef : levelList B frags (i + 1) =
          if (levelList B frags i).length ≤ 1 then levelList B frags i
          else foldLevel B (levelList B frags i) := rfl
      rw [hdef, if_neg hgt, ihh]
      have hne2 : chunkPad B "" (leadersAt B frags i) ≠ [] := by
        intro hnil
        have := congrArg List.length hnil
        rw [chunkPad_length, leadersAt_length,
          cdiv_cdiv (Nat.pos_pow_of_pos i (by omega)) (by omega), ← pow_succ] at this
        simp at this
        omega
      rw [foldLevel_eq_chunkPad B (by omega) _ hne2, leadersAt_succ B (by omega)]

/-- Level task counts, in closed form, for fresh levels. -/
theorem levelList_length (B : Nat) (hB : 2 ≤ B) (frags : List String)
    (hmem : "" ∉ frags) (i : Nat)
    (hfresh : i = 0 ∨ 2 ≤ cdiv frags.length (B ^ i)) :
    (levelList B frags i).length = cdiv frags.length (B ^ (i + 1)) := by
  rw [levelList_eq_chunkPad B hB frags hmem i hfresh, chunkPad_length,
    leadersAt_length, cdiv_cdiv (Nat.pos_pow_of_pos i (by omega)) (by omega),
    ← pow_succ]

/-- The file lists of the scheduler's tasks, in closed form. -/
theorem levelList_getD (B : Nat) (hB : 2 ≤ B) (frags : List String)
    (hmem : "" ∉ frags) (i : Nat)
    (hfresh : i = 0 ∨ 2 ≤ cdiv frags.length (B ^ i)) (j : Nat)
    (hj : j < cdiv frags.length (B ^ (i + 1))) :
    (levelList B frags i).getD j [] = taskFiles B frags i j := by
  rw [levelList_eq_chunkPad B hB frags hmem i hfresh]
  unfold chunkPad
  rw [leadersAt_length, getD_range_map,
    if_pos (by
      rw [cdiv_cdiv (Nat.pos_pow_of_pos i (by omega)) (by omega), ← pow_succ]
      exact hj)]
  unfold taskFiles
  apply List.map_congr_left
  intro k hk
  rw [List.mem_range] at hk
  unfold leadersAt
  rw [getD_range_map]
  have hpowi : 0 < B ^ i := Nat.pos_pow_of_pos i (by omega)
  by_cases hin : j * B + k < cdiv frags.length (B ^ i)
  · rw [if_pos hin]
    congr 1
    rw [pow_succ]
    ring
  · rw [if_neg hin]
    have hge : frags.length ≤ (j * B + k) * B ^ i := by
      have := (cdiv_le_iff hpowi frags.length (j * B + k)).mp (by omega)
      exact this
    rw [List.getD_eq_default]
    rw [show j * B ^ (i + 1) + k * B ^ i = (j * B + k) * B ^ i by
      rw [pow_succ]; ring]
    exact hge

/-! ### Claim C5: sibling tasks partition the files disjointly -/

/-- Every level the scheduler ever exhibits is, in closed form, the
batched chunking of the leaders of some fresh level index. -/
theorem levelList_eq_some_fresh (B : Nat) (hB : 2 ≤ B) (frags : List String)
    (hmem : "" ∉ frags) (i : Nat) :
    ∃ i', (i' = 0 ∨ 2 ≤ cdiv frags.length (B ^ i')) ∧
      levelList B frags i = chunkPad B "" (leadersAt B frags i') := by
  induction i with
  | zero =>
      refine ⟨0, Or.inl rfl, ?_⟩
      show mkLeafTasks B frags = _
      rw [mkLeafTasks_eq_chunkPad B (by omega) frags hmem, leadersAt_zero]
  | succ i ih =>
      obtain ⟨i0, hfresh0, heq0⟩ := ih
      have hdef : levelList B frags (i + 1) =
          if (levelList B frags i).length ≤ 1 then levelList B frags i
          else foldLevel B (levelList B frags i) := rfl
      by_cases hle : (levelList B frags i).length ≤ 1
      · rw [hdef, if_pos hle]
        exact ⟨i0, hfresh0, heq0⟩
      · rw [hdef, if_neg hle]
        have hlen : (levelList B frags i).length =
            cdiv frags.length (B ^ (i0 + 1)) := by
          rw [heq0, chunkPad_length, leadersAt_length,
            cdiv_cdiv (Nat.pos_pow_of_pos i0 (by omega)) (by omega), ← pow_succ]
        refine ⟨i0 + 1, Or.inr (by omega), ?_⟩
        rw [heq0, foldLevel_eq_chunkPad B (by omega) _
          (by
            intro hnil
            rw [← heq0] at hnil
            rw [hnil] at hle
            simp at hle),
          leadersAt_succ B (by omega)]

/-- Closed form of a task's file list inside a chunked level. -/
theorem chunkPad_leaders_getD (B : Nat) (hB : 2 ≤ B) (frags : List String)
    (i j : Nat) (hj : j < cdiv frags.length (B ^ (i + 1))) :
    (chunkPad B "" (leadersAt B frags i)).getD j [] = taskFiles B frags i j := by
  unfold chunkPad
  rw [leadersAt_length, getD_range_map,
    if_pos (by
      rw [cdiv_cdiv (Nat.pos_pow_of_pos i (by omega)) (by omega), ← pow_succ]
      exact hj)]
  unfold taskFiles
  apply List.map_congr_left
  intro k hk
  rw [List.mem_range] at hk
  unfold leadersAt
  rw [getD_range_map]
  have hpowi : 0 < B ^ i := Nat.pos_pow_of_pos i (by omega)
  by_cases hin : j * B + k < cdiv frags.length (B ^ i)
  · rw [if_pos hin]
    congr 1
    rw [pow_succ]
    ring
  · rw [if_neg hin]
    have hge : frags.length ≤ (j * B + k) * B ^ i :=
      (cdiv_le_iff hpowi frags.length (j * B + k)).mp (by omega)
    rw [List.getD_eq_default]
    rw [show j * B ^ (i + 1) + k * B ^ i = (j * B + k) * B ^ i by
      rw [pow_succ]; ring]
    exact hge

/-- A real (non-placeholder) file of the task `(i, j)` is a fragment
whose index, divided by `B ^ (i + 1)`, recovers `j`. -/
theorem taskFiles_mem_index (B : Nat) (hB : 2 ≤ B) (frags : List String)
    (i j : Nat) (p : String) (hp : p ≠ "")
    (h : p ∈ taskFiles B frags i j) :
    ∃ m, m < frags.length ∧ p = frags.getD m "" ∧ m / B ^ (i + 1) = j := by
  unfold taskFiles at h
  rw [List.mem_map] at h
  obtain ⟨k, hk, hpk⟩ := h
  rw [List.mem_range] at hk
  set m := j * B ^ (i + 1) + k * B ^ i with hm
  have hmlt : m < frags.length := by
    by_contra hge
    rw [List.getD_eq_default _ _ (by omega)] at hpk
    exact hp hpk.symm
  refine ⟨m, hmlt, hpk.symm, ?_⟩
  rw [hm, Nat.mul_comm j (B ^ (i + 1)), Nat.mul_add_div
    (Nat.pos_pow_of_pos (i + 1) (by omega))]
  have hklt : k * B ^ i < B ^ (i + 1) := by
    rw [pow_succ, Nat.mul_comm (B ^ i) B]
    exact Nat.mul_lt_mul_of_lt_of_le hk (le_refl _) (Nat.pos_pow_of_pos i (by omega))
  rw [Nat.div_eq_of_lt hklt]
  omega

/-- C5: at every level the scheduler produces (the leaf level and every
reduction level), the non-placeholder file entries of two distinct tasks
of that level are disjoint: a real path appearing in the file list of
task `j` does not appear in the file list of a different task `j'`. -/
theorem C5_sibling_tasks_disjoint (B : Nat) (hB2 : 2 ≤ B) (hB100 : B ≤ 100)
    (frags : List String) (hnd : frags.Nodup) (hmem : "" ∉ frags)
    (i j j' : Nat) (hjj : j ≠ j') (p : String) (hp : p ≠ "")
    (hpj : p ∈ (levelList B frags i).getD j []) :
    p ∉ (levelList B frags i).getD j' [] := by
  intro hpj'
  obtain ⟨i0, hfresh, heq⟩ := levelList_eq_some_fresh B hB2 frags hmem i
  rw [heq] at hpj hpj'
  have hcount : ∀ jj, ¬ jj < cdiv frags.length (B ^ (i0 + 1)) →
      (chunkPad B "" (leadersAt B frags i0)).getD jj [] = [] := by
    intro jj hjj'
    apply List.getD_eq_default
    rw [chunkPad_length, leadersAt_length,
      cdiv_cdiv (Nat.pos_pow_of_pos i0 (by omega)) (by omega), ← pow_succ]
    omega
  by_cases hjc : j < cdiv frags.length (B ^ (i0 + 1))
  · by_cases hjc' : j' < cdiv frags.length (B ^ (i0 + 1))
    · rw [chunkPad_leaders_getD B hB2 frags i0 j hjc] at hpj
      rw [chunkPad_leaders_getD B hB2 frags i0 j' hjc'] at hpj'
      obtain ⟨m, hmlt, hpm, hmj⟩ :=
        taskFiles_mem_index B hB2 frags i0 j p hp hpj
      obtain ⟨m', hmlt', hpm', hmj'⟩ :=
        taskFiles_mem_index B hB2 frags i0 j' p hp hpj'
      have hmm : m = m' := by
        rw [List.getD_eq_getElem frags "" hmlt] at hpm
        rw [List.getD_eq_getElem frags "" hmlt'] at hpm'
        exact (hnd.getElem_inj_iff).mp (hpm ▸ hpm')
      rw [← hmm, hmj] at hmj'
      exact hjj hmj'
    · rw [hcount j' hjc'] at hpj'
      exact List.not_mem_nil p hpj'
  · rw [hcount j hjc] at hpj
    exact List.not_mem_nil p hpj

theorem C5_sibling_tasks_disjoint_witness :
    "a" ∉ (levelList 2 ["a", "b", "c"] 0).getD 1 [] := by
  apply C5_sibling_tasks_disjoint 2 (by omega) (by omega) ["a", "b", "c"]
    (by decide) (by decide) 0 0 1 (by omega) "a" (by decide)
  rw [show (levelList 2 ["a", "b", "c"] 0).getD 0 [] =
    taskFiles 2 ["a", "b", "c"] 0 0 from
    levelList_getD 2 (by omega) _ (by decide) 0 (Or.inl rfl) 0 (by decide)]
  decide

/-! ### Executing the tasks' concatenations on the filesystem

A thread schedule is abstracted as the order in which the tasks' `cat`
calls take effect on the shared filesystem; `execCats` runs a list of
file lists in that order.  (Each dispatched thread retries `cat` until
success; in the model, a task whose leader exists succeeds on the first
invocation, cf. `C6_retry_until_success`.) -/

def execCats (fs : FS) : List (List String) → Option FS
  | [] => some fs
  | t :: ts =>
      match cat fs t with
      | none => none
      | some fs' => execCats fs' ts

theorem execCats_append (fs : FS) (l₁ l₂ : List (List String)) :
    execCats fs (l₁ ++ l₂) =
      match execCats fs l₁ with
      | none => none
      | some fs' => execCats fs' l₂ := by
  induction l₁ generalizing fs with
  | nil => rfl
  | cons t ts ih =>
      simp only [List.cons_append, execCats]
      cases h : cat fs t with
      | none => rfl
      | some fs' => exact ih fs'

theorem catStep_apply_empty (leader : String) (hl : leader ≠ "") (fs : FS)
    (f : String) : catStep leader fs f "" = fs "" := by
  by_cases hf : f = ""
  · rw [catStep_skip leader fs f (Or.inl hf)]
  · exact catStep_apply_of_ne leader fs f "" (Ne.symm hf) (fun h => hl h.symm)

theorem foldl_catStep_frame (leader : String) (hl : leader ≠ "")
    (rest : List String) (fs : FS) (p : String)
    (hp : p ∉ rest ∨ p = "") (hpl : p ≠ leader) :
    rest.foldl (catStep leader) fs p = fs p := by
  induction rest generalizing fs with
  | nil => rfl
  | cons r rs ih =>
      have hstep : catStep leader fs r p = fs p := by
        rcases hp with hp | hp
        · exact catStep_apply_of_ne leader fs r p
            (fun h => hp (h ▸ List.mem_cons_self r rs)) hpl
        · rw [hp]
          exact catStep_apply_empty leader hl fs r
      rw [List.foldl_cons, ih (catStep leader fs r)
        (by
          rcases hp with hp | hp
          · exact Or.inl (fun h => hp (List.mem_cons_of_mem r h))
          · exact Or.inr hp), hstep]

/-- Write frame of `cat`: a successful `cat` leaves every path outside
its (real) file list untouched. -/
theorem cat_frame (fs : FS) (files : List String) (fs' : FS)
    (h : cat fs files = some fs') (p : String)
    (hp : p ∉ files ∨ p = "") : fs' p = fs p := by
  unfold cat at h
  by_cases h1 : files.length ≤ 1
  · rw [if_pos h1] at h
    cases h
    rfl
  · rw [if_neg h1] at h
    by_cases h2 : files.headD "" = ""
    · rw [if_pos h2] at h
      cases h
      rfl
    · rw [if_neg h2] at h
      cases hlead : fs (files.headD "") with
      | none => rw [hlead] at h; cases h
      | some g =>
          rw [hlead] at h
          cases h
          have hhead : files.headD "" ∈ files := by
            cases files with
            | nil => simp at h1
            | cons x xs => exact List.mem_cons_self x xs
          apply foldl_catStep_frame _ h2
          · rcases hp with hp | hp
            · exact Or.inl (fun hm => hp (by
                cases files with
                | nil => simp at h1
                | cons x xs => exact List.mem_cons_of_mem x hm))
            · exact Or.inr hp
          · rcases hp with hp | hp
            · exact fun he => hp (he ▸ hhead)
            · exact fun he => h2 (he ▸ hp)

/-- Frame of the fold for a path outside the list and distinct from
the leader. -/
theorem foldl_catStep_frame' (leader : String) (rest : List String) (fs : FS)
    (p : String) (hp : p ∉ rest) (hpl : p ≠ leader) :
    rest.foldl (catStep leader) fs p = fs p := by
  induction rest generalizing fs with
  | nil => rfl
  | cons r rs ih =>
      rw [List.foldl_cons, ih (catStep leader fs r)
          (fun h => hp (List.mem_cons_of_mem r h)),
        catStep_apply_of_ne leader fs r p
          (fun h => hp (h ▸ List.mem_cons_self r rs)) hpl]

/-- Processing a real file deletes it (or it was already missing). -/
theorem catStep_self (leader : String) (fs : FS) (q : String) (hq : q ≠ "") :
    catStep leader fs q q = none := by
  cases hc : fs q with
  | none => rw [catStep_skip leader fs q (Or.inr hc)]; exact hc
  | some c =>
      unfold catStep
      rw [if_neg hq, hc]
      simp

/-- Read-congruence of the `catStep` fold: two filesystems agreeing on
the real entries of the remaining list and on the leader keep agreeing
there after the fold. -/
theorem foldl_catStep_congr (leader : String) (rest : List String)
    (fs₁ fs₂ : FS)
    (h : ∀ q, ((q ∈ rest ∧ q ≠ "") ∨ q = leader) → fs₁ q = fs₂ q) :
    ∀ q, ((q ∈ rest ∧ q ≠ "") ∨ q = leader) →
      rest.foldl (catStep leader) fs₁ q = rest.foldl (catStep leader) fs₂ q := by
  induction rest generalizing fs₁ fs₂ with
  | nil =>
      intro q hq
      rcases hq with ⟨hq, _⟩ | hq
      · exact absurd hq (List.not_mem_nil q)
      · exact h q (Or.inr hq)
  | cons r rs ih =>
      have hsub : ∀ q, ((q ∈ rs ∧ q ≠ "") ∨ q = leader) →
          ((q ∈ r :: rs ∧ q ≠ "") ∨ q = leader) := by
        rintro q (⟨hq, hq'⟩ | hq)
        · exact Or.inl ⟨List.mem_cons_of_mem r hq, hq'⟩
        · exact Or.inr hq
      have hstep : ∀ q, ((q ∈ rs ∧ q ≠ "") ∨ q = leader) →
          catStep leader fs₁ r q = catStep leader fs₂ r q := by
        intro q hq
        by_cases hr : r = ""
        · rw [catStep_skip leader fs₁ r (Or.inl hr),
            catStep_skip leader fs₂ r (Or.inl hr)]
          exact h q (hsub q hq)
        · have hrmem : (r ∈ r :: rs ∧ r ≠ "") ∨ r = leader :=
            Or.inl ⟨List.mem_cons_self r rs, hr⟩
          have hrr : fs₁ r = fs₂ r := h r hrmem
          cases hc : fs₁ r with
          | none =>
              rw [catStep_skip leader fs₁ r (Or.inr hc),
                catStep_skip leader fs₂ r (Or.inr (hrr ▸ hc))]
              exact h q (hsub q hq)
          | some c =>
              have hc2 : fs₂ r = some c := hrr ▸ hc
              have e1 : catStep leader fs₁ r = fun p =>
                  if p = r then none
                  else if p = leader then (fs₁ leader).map (· ++ c) else fs₁ p := by
                unfold catStep
                rw [if_neg hr, hc]
              have e2 : catStep leader fs₂ r = fun p =>
                  if p = r then none
                  else if p = leader then (fs₂ leader).map (· ++ c) else fs₂ p := by
                unfold catStep
                rw [if_neg hr, hc2]
              rw [e1, e2]
              dsimp only
              by_cases hqr : q = r
              · rw [if_pos hqr, if_pos hqr]
              · rw [if_neg hqr, if_neg hqr]
                by_cases hql : q = leader
                · rw [if_pos hql, if_pos hql, h leader (Or.inr rfl)]
                · rw [if_neg hql, if_neg hql]
                  exact h q (hsub q hq)
      intro q hq
      rw [List.foldl_cons, List.foldl_cons]
      rcases hq with ⟨hqmem, hqne⟩ | hql
      · rcases List.mem_cons.mp hqmem with hqr | hqrs
        · by_cases hqrs2 : q ∈ rs
          · exact ih (catStep leader fs₁ r) (catStep leader fs₂ r) hstep q
              (Or.inl ⟨hqrs2, hqne⟩)
          · by_cases hql2 : q = leader
            · exact ih (catStep leader fs₁ r) (catStep leader fs₂ r) hstep q
                (Or.inr hql2)
            · have hrne : r ≠ "" := hqr ▸ hqne
              rw [foldl_catStep_frame' leader rs (catStep leader fs₁ r) q hqrs2 hql2,
                foldl_catStep_frame' leader rs (catStep leader fs₂ r) q hqrs2 hql2,
                hqr, catStep_self leader fs₁ r hrne, catStep_self leader fs₂ r hrne]
        · exact ih (catStep leader fs₁ r) (catStep leader fs₂ r) hstep q
            (Or.inl ⟨hqrs, hqne⟩)
      · exact ih (catStep leader fs₁ r) (catStep leader fs₂ r) hstep q (Or.inr hql)

/-- Read-congruence of `cat`: on filesystems agreeing on the real
entries of the file list, `cat` fails together and the successful
results again agree on the real entries. -/
theorem cat_congr (files : List String) (fs₁ fs₂ : FS)
    (h : ∀ q, q ∈ files → q ≠ "" → fs₁ q = fs₂ q) :
    (cat fs₁ files = none ↔ cat fs₂ files = none) ∧
      (∀ g₁ g₂, cat fs₁ files = some g₁ → cat fs₂ files = some g₂ →
        ∀ q, q ∈ files → q ≠ "" → g₁ q = g₂ q) := by
  unfold cat
  by_cases h1 : files.length ≤ 1
  · rw [if_pos h1, if_pos h1]
    refine ⟨by simp, fun g₁ g₂ hg₁ hg₂ q hq hq' => ?_⟩
    cases hg₁
    cases hg₂
    exact h q hq hq'
  · rw [if_neg h1, if_neg h1]
    cases files with
    | nil => simp at h1
    | cons x xs =>
        simp only [List.headD_cons, List.drop_one, List.tail_cons]
        by_cases h2 : x = ""
        · rw [if_pos h2, if_pos h2]
          refine ⟨by simp, fun g₁ g₂ hg₁ hg₂ q hq hq' => ?_⟩
          cases hg₁
          cases hg₂
          exact h q hq hq'
        · rw [if_neg h2, if_neg h2]
          have hx : fs₁ x = fs₂ x := h x (List.mem_cons_self x xs) h2
          have hcong := foldl_catStep_congr x xs fs₁ fs₂ (by
            rintro q (⟨hq, hq'⟩ | hq)
            · exact h q (List.mem_cons_of_mem x hq) hq'
            · exact h q (hq ▸ List.mem_cons_self x xs) (hq ▸ h2))
          cases hfs : fs₁ x with
          | none =>
              rw [← hx, hfs]
              exact ⟨by simp, fun g₁ g₂ hg₁ hg₂ => by cases hg₁⟩
          | some g =>
              rw [← hx, hfs]
              refine ⟨by simp, fun g₁ g₂ hg₁ hg₂ q hq hq' => ?_⟩
              cases hg₁
              cases hg₂
              rcases List.mem_cons.mp hq with hqx | hqxs
              · exact hcong q (Or.inr hqx)
              · exact hcong q (Or.inl ⟨hqxs, hq'⟩)

/-- Two `cat` calls over file lists with disjoint real entries commute:
the shared filesystem ends in the same state (including equal failure)
whichever order the scheduler runs them in. -/
theorem cat_comm (A Bf : List String) (fs : FS)
    (hd : ∀ p, p ≠ "" → p ∈ A → p ∉ Bf) :
    (match cat fs A with
      | none => none
      | some g => cat g Bf) =
      (match cat fs Bf with
        | none => none
        | some g => cat g A) := by
  have hd' : ∀ p, p ≠ "" → p ∈ Bf → p ∉ A := fun p hp hpB hpA => hd p hp hpA hpB
  cases hA : cat fs A with
  | none =>
      cases hB : cat fs Bf with
      | none => rfl
      | some gB =>
          have hagree : ∀ q, q ∈ A → q ≠ "" → gB q = fs q := fun q hq hq' =>
            cat_frame fs Bf gB hB q (Or.inl (hd q hq' hq))
          have hnone := (cat_congr A gB fs hagree).1.mpr hA
          dsimp only
          rw [hnone]
  | some gA =>
      cases hB : cat fs Bf with
      | none =>
          have hagree : ∀ q, q ∈ Bf → q ≠ "" → gA q = fs q := fun q hq hq' =>
            cat_frame fs A gA hA q (Or.inl (hd' q hq' hq))
          have hnone := (cat_congr Bf gA fs hagree).1.mpr hB
          dsimp only
          rw [hnone]
      | some gB =>
          have hagreeB : ∀ q, q ∈ Bf → q ≠ "" → gA q = fs q := fun q hq hq' =>
            cat_frame fs A gA hA q (Or.inl (hd' q hq' hq))
          have hagreeA : ∀ q, q ∈ A → q ≠ "" → gB q = fs q := fun q hq hq' =>
            cat_frame fs Bf gB hB q (Or.inl (hd q hq' hq))
          have hAB : cat gA Bf ≠ none := by
            intro hnone
            have := (cat_congr Bf gA fs hagreeB).1.mp hnone
            rw [this] at hB
            cases hB
          have hBA : cat gB A ≠ none := by
            intro hnone
            have := (cat_congr A gB fs hagreeA).1.mp hnone
            rw [this] at hA
            cases hA
          obtain ⟨gAB, hgAB⟩ := Option.ne_none_iff_exists.mp hAB
          obtain ⟨gBA, hgBA⟩ := Option.ne_none_iff_exists.mp hBA
          dsimp only
          rw [← hgAB, ← hgBA]
          congr 1
          funext p
          by_cases hpe : p = ""
          · have e1 : gAB p = gA p := cat_frame gA Bf gAB hgAB.symm p (Or.inr hpe)
            have e2 : gA p = fs p := cat_frame fs A gA hA p (Or.inr hpe)
            have e3 : gBA p = gB p := cat_frame gB A gBA hgBA.symm p (Or.inr hpe)
            have e4 : gB p = fs p := cat_frame fs Bf gB hB p (Or.inr hpe)
            rw [e1, e2, e3, e4]
          · by_cases hpB : p ∈ Bf
            · have e1 : gAB p = gB p :=
                (cat_congr Bf gA fs hagreeB).2 gAB gB hgAB.symm hB p hpB hpe
              have e2 : gBA p = gB p :=
                cat_frame gB A gBA hgBA.symm p (Or.inl (hd' p hpe hpB))
              rw [e1, e2]
            · by_cases hpA : p ∈ A
              · have e1 : gBA p = gA p :=
                  (cat_congr A gB fs hagreeA).2 gBA gA hgBA.symm hA p hpA hpe
                have e2 : gAB p = gA p :=
                  cat_frame gA Bf gAB hgAB.symm p (Or.inl hpB)
                rw [e1, e2]
              · have e1 : gAB p = gA p :=
                  cat_frame gA Bf gAB hgAB.symm p (Or.inl hpB)
                have e2 : gA p = fs p := cat_frame fs A gA hA p (Or.inl hpA)
                have e3 : gBA p = gB p :=
                  cat_frame gB A gBA hgBA.symm p (Or.inl hpA)
                have e4 : gB p = fs p := cat_frame fs Bf gB hB p (Or.inl hpB)
                rw [e1, e2, e3, e4]

/-- Swapping two adjacent tasks with disjoint real footprints does not
change the execution result. -/
theorem execCats_swap (A Bf : List String) (rest : List (List String))
    (fs : FS) (hd : ∀ p, p ≠ "" → p ∈ A → p ∉ Bf) :
    execCats fs (A :: Bf :: rest) = execCats fs (Bf :: A :: rest) := by
  have hcomm := cat_comm A Bf fs hd
  show (match cat fs A with
    | none => none
    | some g =>
        match cat g Bf with
        | none => none
        | some g' => execCats g' rest) =
    (match cat fs Bf with
    | none => none
    | some g =>
        match cat g A with
        | none => none
        | some g' => execCats g' rest)
  cases hA : cat fs A with
  | none =>
      rw [hA] at hcomm
      dsimp only at hcomm ⊢
      cases hB : cat fs Bf with
      | none => rfl
      | some gB =>
          rw [hB] at hcomm
          dsimp only at hcomm ⊢
          rw [← hcomm]
  | some gA =>
      rw [hA] at hcomm
      dsimp only at hcomm ⊢
      cases hB : cat fs Bf with
      | none =>
          rw [hB] at hcomm
          dsimp only at hcomm ⊢
          rw [hcomm]
      | some gB =>
          rw [hB] at hcomm
          dsimp only at hcomm ⊢
          rw [hcomm]

/-- Moving a task leftward across tasks it is independent of does not
change the execution result. -/
theorem execCats_pull (t : List String) (gam del : List (List String))
    (fs : FS) (hd : ∀ a ∈ gam, ∀ p, p ≠ "" → p ∈ a → p ∉ t) :
    execCats fs (gam ++ t :: del) = execCats fs (t :: (gam ++ del)) := by
  induction gam generalizing fs with
  | nil => rfl
  | cons a gam' ih =>
      have h1 : execCats fs ((a :: gam') ++ t :: del) =
          match cat fs a with
          | none => none
          | some g => execCats g (gam' ++ t :: del) := rfl
      have h2 : ∀ g, execCats g (gam' ++ t :: del) =
          execCats g (t :: (gam' ++ del)) := fun g =>
        ih g (fun b hb => hd b (List.mem_cons_of_mem a hb))
      have h3 : execCats fs (a :: t :: (gam' ++ del)) =
          execCats fs (t :: a :: (gam' ++ del)) :=
        execCats_swap a t (gam' ++ del) fs
          (hd a (List.mem_cons_self a gam'))
      calc execCats fs ((a :: gam') ++ t :: del)
          = (match cat fs a with
            | none => none
            | some g => execCats g (t :: (gam' ++ del))) := by
            rw [h1]
            cases cat fs a with
            | none => rfl
            | some g => exact h2 g
      _ = execCats fs (a :: t :: (gam' ++ del)) := rfl
      _ = execCats fs (t :: a :: (gam' ++ del)) := h3
      _ = execCats fs (t :: ((a :: gam') ++ del)) := rfl

/-- Schedule invariance: executing the tasks' concatenations in any two
orders that both respect the dependency relation (no task ever runs
before a task it depends on, i.e. each list is a linear extension of
`prec`) yields the same filesystem outcome, provided tasks unrelated by
`prec` have disjoint real footprints. -/
theorem execCats_linext {ι : Type} (filesOf : ι → List String)
    (prec : ι → ι → Prop) :
    ∀ (σ τ : List ι) (fs : FS), σ.Perm τ → σ.Nodup →
      σ.Pairwise (fun a b => ¬ prec b a) →
      τ.Pairwise (fun a b => ¬ prec b a) →
      (∀ a ∈ σ, ∀ b ∈ σ, a ≠ b → ¬ prec a b → ¬ prec b a →
        ∀ p, p ≠ "" → p ∈ filesOf a → p ∉ filesOf b) →
      execCats fs (σ.map filesOf) = execCats fs (τ.map filesOf) := by
  intro σ
  induction σ with
  | nil =>
      intro τ fs hperm _ _ _ _
      rw [List.Perm.eq_nil hperm.symm]
  | cons t σ' ih =>
      intro τ fs hperm hnd hpσ hpτ hdisj
      have htτ : t ∈ τ := hperm.mem_iff.mp (List.mem_cons_self t σ')
      obtain ⟨gam, del, rfl⟩ := List.append_of_mem htτ
      have hndτ : (gam ++ t :: del).Nodup := hperm.nodup hnd
      have htgam : t ∉ gam := by
        rw [List.nodup_append] at hndτ
        intro hmem
        exact hndτ.2.2 hmem (List.mem_cons_self t del)
      have hpτ' := List.pairwise_append.mp hpτ
      have hmemσ : ∀ a ∈ gam, a ∈ σ' := by
        intro a ha
        have h1 : a ∈ gam ++ t :: del := List.mem_append_left _ ha
        have h2 : a ∈ t :: σ' := hperm.mem_iff.mpr h1
        rcases List.mem_cons.mp h2 with h3 | h3
        · exact absurd (h3 ▸ ha) htgam
        · exact h3
      have hdmove : ∀ a ∈ gam, ∀ p, p ≠ "" → p ∈ filesOf a → p ∉ filesOf t := by
        intro a ha
        have hat : a ≠ t := fun he => htgam (he ▸ ha)
        have hpa : ¬ prec a t :=
          (List.pairwise_cons.mp hpσ).1 a (hmemσ a ha)
        have hta : ¬ prec t a :=
          hpτ'.2.2 a ha t (List.mem_cons_self t del)
        exact hdisj a (List.mem_cons_of_mem t (hmemσ a ha)) t
          (List.mem_cons_self t σ') hat hpa hta
      simp only [List.map_append, List.map_cons]
      rw [execCats_pull (filesOf t) (gam.map filesOf) (del.map filesOf) fs
          (by
            intro fa hfa p hp hpfa
            rw [List.mem_map] at hfa
            obtain ⟨a, ha, rfl⟩ := hfa
            exact hdmove a ha p hp hpfa)]
      show (match cat fs (filesOf t) with
        | none => none
        | some g => execCats g (σ'.map filesOf)) =
        (match cat fs (filesOf t) with
        | none => none
        | some g => execCats g ((gam.map filesOf) ++ (del.map filesOf)))
      cases hcat : cat fs (filesOf t) with
      | none => rfl
      | some g =>
          dsimp only
          rw [← List.map_append]
          refine ih (gam ++ del) g ?_ hnd.of_cons hpσ.of_cons ?_ ?_
          · have h1 : (gam ++ t :: del).Perm (t :: (gam ++ del)) :=
              List.perm_middle
            exact (hperm.trans h1).cons_inv
          · have hsub : (gam ++ del).Sublist (gam ++ t :: del) :=
              List.Sublist.append_left (List.sublist_cons_self t del) gam
            exact List.Pairwise.sublist hsub hpτ
          · exact fun a ha b hb hab hpab hpba =>
              hdisj a (List.mem_cons_of_mem t ha) b (List.mem_cons_of_mem t hb)
                hab hpab hpba

/-! ### The task schedule of one reconstruction

Identify the task `j` of level `i` by the pair `(i, j)`.  `numLevels`
counts the levels the scheduler runs for `n` fragments (the leaf level,
plus one reduction level per fold until a single task remains), and
`schedule` lists all task identifiers level by level.  `prec a b` holds
when task `a` lies in the subtree of task `b` — then `b`'s thread joins
(transitively) on `a` before running its own concatenation. -/

def numLevels (B n : Nat) : Nat :=
  if h : n ≤ B ∨ B < 2 then 1 else 1 + numLevels B (cdiv n B)
termination_by n
decreasing_by
  push_neg at h
  exact cdiv_lt_self (by omega) (by omega)

def schedule (B n : Nat) : List (Nat × Nat) :=
  ((List.range (numLevels B n)).map
    (fun i => (List.range (cdiv n (B ^ (i + 1)))).map (fun j => (i, j)))).flatten

/-- Task `a` is a (strict) descendant of task `b` in the merge tree. -/
def prec (B : Nat) (a b : Nat × Nat) : Prop :=
  a.1 < b.1 ∧ a.2 / B ^ (b.1 - a.1) = b.2

instance (B : Nat) (a b : Nat × Nat) : Decidable (prec B a b) := by
  unfold prec
  infer_instance

theorem numLevels_pos (B n : Nat) : 1 ≤ numLevels B n := by
  rw [numLevels]
  split
  · omega
  · omega

theorem numLevels_spec (B : Nat) (hB : 2 ≤ B) :
    ∀ fuel n, n ≤ fuel → 1 ≤ n →
      cdiv n (B ^ numLevels B n) = 1 ∧
        (∀ i, i + 1 < numLevels B n → 2 ≤ cdiv n (B ^ (i + 1))) := by
  intro fuel
  induction fuel with
  | zero => intro n h1 h2; omega
  | succ fuel ih =>
      intro n h1 h2
      by_cases hle : n ≤ B ∨ B < 2
      · have hnum : numLevels B n = 1 := by rw [numLevels, dif_pos hle]
        rw [hnum]
        refine ⟨by rw [pow_one]; exact cdiv_one_of_le (by omega) h2 (by omega), ?_⟩
        intro i hi
        omega
      · push_neg at hle
        have hnum : numLevels B n = 1 + numLevels B (cdiv n B) := by
          rw [numLevels, dif_neg (by push_neg; omega)]
        have hm1 : 1 ≤ cdiv n B := by
          have := (cdiv_eq_zero_iff (show 0 < B by omega) n).not
          omega
        have hmfuel : cdiv n B ≤ fuel := by
          have := cdiv_lt_self (show 2 ≤ n by omega) (show 2 ≤ B by omega)
          omega
        obtain ⟨ih1, ih2⟩ := ih (cdiv n B) hmfuel hm1
        have hshift : ∀ k, cdiv (cdiv n B) (B ^ k) = cdiv n (B ^ (k + 1)) := by
          intro k
          rw [cdiv_cdiv (show 0 < B by omega) (Nat.pos_pow_of_pos k (by omega)),
            ← pow_succ']
        constructor
        · rw [hnum, Nat.add_comm 1, pow_succ']
          rw [← cdiv_cdiv (show 0 < B by omega)
            (Nat.pos_pow_of_pos (numLevels B (cdiv n B)) (by omega))]
          exact ih1
        · intro i hi
          cases i with
          | zero =>
              rw [pow_one]
              by_contra hcon
              have : cdiv n B ≤ 1 := by omega
              have := (cdiv_le_iff (show 0 < B by omega) n 1).mp this
              omega
          | succ i' =>
              rw [← hshift]
              exact ih2 i' (by omega)

/-! ### Contents accumulated by the merge tree

`G Cs t q` is the concatenation of the contents of the `q`-th group of
`t` consecutive fragments: the bytes held by the leader of a task whose
subtree covers fragments `q*t ..< (q+1)*t` once that task completed. -/

def G (Cs : List Bytes) (t q : Nat) : Bytes := ((Cs.drop (q * t)).take t).flatten

theorem G_flatten (Cs : List Bytes) (t : Nat) :
    ∀ (c q0 : Nat),
      ((List.range c).map (fun k => G Cs t (q0 + k))).flatten =
        ((Cs.drop (q0 * t)).take (c * t)).flatten := by
  intro c
  induction c with
  | zero => simp
  | succ c ih =>
      intro q0
      rw [List.range_succ_eq_map, List.map_cons, List.map_map, List.flatten_cons]
      have hcomp : ((fun k => G Cs t (q0 + k)) ∘ Nat.succ) =
          fun k => G Cs t (q0 + 1 + k) := by
        funext k
        simp only [Function.comp]
        congr 1
        omega
      rw [hcomp, ih (q0 + 1)]
      unfold G
      rw [Nat.add_zero, show (c + 1) * t = t + c * t by ring, List.take_add,
        List.flatten_append, List.drop_drop, show (q0 + 1) * t = q0 * t + t by ring]

theorem G_eq_nil_of_ge (Cs : List Bytes) (t q : Nat) (h : Cs.length ≤ q * t) :
    G Cs t q = [] := by
  unfold G
  rw [List.drop_eq_nil_of_le h]
  simp

/-- Full characterization of `cat`'s loop on a task list: the leader
accumulates, in list order, the bytes of every existing secondary entry
(placeholders and missing entries contribute nothing), the processed
real entries are deleted, and nothing else changes. -/
theorem foldl_catStep_run (f0 : String) (hf0 : f0 ≠ "") :
    ∀ (rest : List String) (fsc : FS) (gc : Bytes),
      fsc f0 = some gc → f0 ∉ rest →
      (rest.filter (fun x => decide (x ≠ ""))).Nodup →
      (rest.foldl (catStep f0) fsc) f0 =
          some (gc ++ (rest.map (fun r => if r = "" then []
            else (fsc r).getD [])).flatten) ∧
        ∀ p, p ≠ f0 →
          (rest.foldl (catStep f0) fsc) p =
            if p ∈ rest ∧ p ≠ "" then none else fsc p := by
  intro rest
  induction rest with
  | nil =>
      intro fsc gc hgc _ _
      refine ⟨by simpa using hgc, fun p hp => by simp⟩
  | cons r rs ih =>
      intro fsc gc hgc hf0mem hnd
      have hf0rs : f0 ∉ rs := fun h => hf0mem (List.mem_cons_of_mem r h)
      have hf0r : f0 ≠ r := fun h => hf0mem (h ▸ List.mem_cons_self r rs)
      by_cases hr : r = ""
      · subst hr
        rw [List.foldl_cons, catStep_skip f0 fsc "" (Or.inl rfl)]
        have hnd' : (rs.filter (fun x => decide (x ≠ ""))).Nodup := by
          rw [List.filter_cons] at hnd
          simpa using hnd
        obtain ⟨h1, h2⟩ := ih fsc gc hgc hf0rs hnd'
        refine ⟨?_, fun p hp => ?_⟩
        · rw [h1]
          simp
        · rw [h2 p hp]
          by_cases hmem : p ∈ rs ∧ p ≠ ""
          · rw [if_pos hmem, if_pos ⟨List.mem_cons_of_mem _ hmem.1, hmem.2⟩]
          · rw [if_neg hmem, if_neg (by
              intro hcon
              rcases List.mem_cons.mp hcon.1 with he | hm
              · exact hcon.2 he
              · exact hmem ⟨hm, hcon.2⟩)]
      · have hfilter : (r :: rs).filter (fun x => decide (x ≠ "")) =
            r :: rs.filter (fun x => decide (x ≠ "")) := by
          rw [List.filter_cons, if_pos (by simpa using hr)]
        rw [hfilter] at hnd
        have hrnotin : r ∉ rs.filter (fun x => decide (x ≠ "")) :=
          (List.nodup_cons.mp hnd).1
        have hnd' : (rs.filter (fun x => decide (x ≠ ""))).Nodup :=
          (List.nodup_cons.mp hnd).2
        cases hfr : fsc r with
        | none =>
            rw [List.foldl_cons, catStep_skip f0 fsc r (Or.inr hfr)]
            obtain ⟨h1, h2⟩ := ih fsc gc hgc hf0rs hnd'
            refine ⟨?_, fun p hp => ?_⟩
            · rw [h1, List.map_cons, List.flatten_cons, if_neg hr, hfr]
              simp
            · rw [h2 p hp]
              by_cases hmem : p ∈ rs ∧ p ≠ ""
              · rw [if_pos hmem, if_pos ⟨List.mem_cons_of_mem _ hmem.1, hmem.2⟩]
              · rw [if_neg hmem]
                by_cases hpr : p = r
                · rw [if_pos ⟨hpr ▸ List.mem_cons_self r rs,
                    by rw [hpr]; exact hr⟩, hpr, hfr]
                · rw [if_neg (by
                    intro hcon
                    rcases List.mem_cons.mp hcon.1 with he | hm
                    · exact hpr he
                    · exact hmem ⟨hm, hcon.2⟩)]
        | some c =>
            have hrnotrs : r ∉ rs := by
              intro hmem
              exact hrnotin (List.mem_filter.mpr ⟨hmem, by simpa using hr⟩)
            rw [List.foldl_cons]
            have hfs1f0 : catStep f0 fsc r f0 = some (gc ++ c) := by
              unfold catStep
              rw [if_neg hr, hfr]
              dsimp only
              rw [if_neg hf0r, if_pos rfl, hgc]
              rfl
            have hfs1r : catStep f0 fsc r r = none := catStep_self f0 fsc r hr
            have hfs1other : ∀ q, q ≠ r → q ≠ f0 → catStep f0 fsc r q = fsc q :=
              fun q h1 h2 => catStep_apply_of_ne f0 fsc r q h1 h2
            obtain ⟨h1, h2⟩ := ih (catStep f0 fsc r) (gc ++ c) hfs1f0 hf0rs hnd'
            refine ⟨?_, fun p hp => ?_⟩
            · rw [h1, List.map_cons, List.flatten_cons, if_neg hr, hfr]
              have hAB : (rs.map (fun x => if x = "" then []
                  else ((catStep f0 fsc r) x).getD [])).flatten =
                  (rs.map (fun x => if x = "" then []
                    else (fsc x).getD [])).flatten := by
                congr 1
                apply List.map_congr_left
                intro x hx
                by_cases hxe : x = ""
                · rw [if_pos hxe, if_pos hxe]
                · rw [if_neg hxe, if_neg hxe,
                    hfs1other x (fun he => hrnotrs (he ▸ hx))
                      (fun he => hf0rs (he ▸ hx))]
              rw [hAB, List.append_assoc]
              rfl
            · rw [h2 p hp]
              by_cases hmem : p ∈ rs ∧ p ≠ ""
              · rw [if_pos hmem, if_pos ⟨List.mem_cons_of_mem _ hmem.1, hmem.2⟩]
              · rw [if_neg hmem]
                by_cases hpr : p = r
                · rw [if_pos ⟨hpr ▸ List.mem_cons_self r rs,
                    by rw [hpr]; exact hr⟩, hpr, hfs1r]
                · rw [if_neg (by
                    intro hcon
                    rcases List.mem_cons.mp hcon.1 with he | hm
                    · exact hpr he
                    · exact hmem ⟨hm, hcon.2⟩),
                    hfs1other p hpr hp]

/-- Characterization of one successful `cat` call on a well-formed task:
leader gains the concatenated bytes of the existing secondary entries in
order, the real secondary entries disappear, everything else is kept. -/
theorem cat_run (fsc : FS) (f0 : String) (rest : List String)
    (hlen : ¬ (f0 :: rest).length ≤ 1) (hf0 : f0 ≠ "") (gc : Bytes)
    (hgc : fsc f0 = some gc) (hf0mem : f0 ∉ rest)
    (hnd : (rest.filter (fun x => decide (x ≠ ""))).Nodup) :
    cat fsc (f0 :: rest) = some (fun p =>
      if p = f0 then
        some (gc ++ (rest.map (fun r => if r = "" then []
          else (fsc r).getD [])).flatten)
      else if p ∈ rest ∧ p ≠ "" then none else fsc p) := by
  unfold cat
  rw [if_neg hlen]
  simp only [List.headD_cons, List.drop_one, List.tail_cons]
  rw [if_neg hf0, hgc]
  dsimp only
  congr 1
  funext p
  obtain ⟨h1, h2⟩ := foldl_catStep_run f0 hf0 rest fsc gc hgc hf0mem hnd
  by_cases hp : p = f0
  · rw [if_pos hp, hp, h1]
  · rw [if_neg hp, h2 p hp]

/-! ### The filesystem invariant of the canonical execution

`midVal Cs B i j m` is the state of the fragment with index `m` after
all tasks of levels `< i` and the first `j` tasks of level `i` have run:
consumed fragments are gone, group leaders hold their group's bytes. -/

def midVal (Cs : List Bytes) (B i j m : Nat) : Option Bytes :=
  if m % B ^ i = 0 then
    if m / B ^ i < j * B then
      (if (m / B ^ i) % B = 0 then some (G Cs (B ^ (i + 1)) (m / B ^ i / B))
       else none)
    else some (G Cs (B ^ i) (m / B ^ i))
  else none

/-- The whole filesystem at that point: fragment paths carry `midVal`,
all other paths still carry their initial contents. -/
def midState (fs0 : FS) (frags : List String) (Cs : List Bytes)
    (B i j : Nat) : FS :=
  fun p => if p ∈ frags then midVal Cs B i j (frags.indexOf p) else fs0 p

theorem indexOf_getD (frags : List String) (hnd : frags.Nodup) (m : Nat)
    (hm : m < frags.length) :
    frags.indexOf (frags.getD m "") = m := by
  rw [List.getD_eq_getElem frags "" hm]
  have := List.get_indexOf hnd ⟨m, hm⟩
  simpa using this

theorem getD_indexOf (frags : List String) (p : String) (hp : p ∈ frags) :
    frags.getD (frags.indexOf p) "" = p := by
  have hlt : frags.indexOf p < frags.length := List.indexOf_lt_length.mpr hp
  rw [List.getD_eq_getElem frags "" hlt]
  have := List.indexOf_get hlt
  simpa using this

/-- Between tasks `j` and `j + 1`, only fragments of the `j`-th block of
the current level change state. -/
theorem midVal_succ_eq (Cs : List Bytes) (B i j m : Nat)
    (h : m % B ^ i ≠ 0 ∨ m / B ^ i < j * B ∨ (j + 1) * B ≤ m / B ^ i) :
    midVal Cs B i j m = midVal Cs B i (j + 1) m := by
  unfold midVal
  have hexp : (j + 1) * B = j * B + B := by ring
  rcases h with h | h | h
  · rw [if_neg h, if_neg h]
  · by_cases h0 : m % B ^ i = 0
    · rw [if_pos h0, if_pos h0, hexp]
      split_ifs <;> first | rfl | omega
    · rw [if_neg h0, if_neg h0]
  · rw [hexp] at h
    by_cases h0 : m % B ^ i = 0
    · rw [if_pos h0, if_pos h0, hexp]
      split_ifs <;> first | rfl | omega
    · rw [if_neg h0, if_neg h0]

/-- Concatenating the `B` consecutive child-group contents of block `j`
yields the parent-group content. -/
theorem G_block (Cs : List Bytes) (B : Nat) (hB : 1 ≤ B) (i j : Nat) :
    G Cs (B ^ i) (j * B) ++
      ((List.range (B - 1)).map
        (fun k => G Cs (B ^ i) (j * B + (k + 1)))).flatten =
      G Cs (B ^ (i + 1)) j := by
  have h1 : ∀ k, G Cs (B ^ i) (j * B + (k + 1)) =
      G Cs (B ^ i) ((j * B + 1) + k) := by
    intro k
    congr 1
    omega
  rw [List.map_congr_left (fun k _ => h1 k), G_flatten]
  unfold G
  rw [show (j * B + 1) * B ^ i = j * B * B ^ i + B ^ i by ring,
    ← List.drop_drop, ← List.flatten_append, ← List.take_add,
    show B ^ i + (B - 1) * B ^ i = B ^ (i + 1) by
      rw [pow_succ]
      have : B - 1 + 1 = B := by omega
      calc B ^ i + (B - 1) * B ^ i = (B - 1 + 1) * B ^ i := by ring
      _ = B * B ^ i := by rw [this]
      _ = B ^ i * B := by ring,
    show j * B * B ^ i = j * B ^ (i + 1) by rw [pow_succ]; ring]

theorem taskFiles_cons (B : Nat) (hB : 1 ≤ B) (frags : List String) (i j : Nat) :
    taskFiles B frags i j = frags.getD (j * B ^ (i + 1)) "" ::
      (List.range (B - 1)).map
        (fun k => frags.getD (j * B ^ (i + 1) + (k + 1) * B ^ i) "") := by
  unfold taskFiles
  cases B with
  | zero => omega
  | succ b =>
      rw [List.range_succ_eq_map, List.map_cons, List.map_map,
        show j * (b + 1) ^ (i + 1) + 0 * (b + 1) ^ i = j * (b + 1) ^ (i + 1)
          by ring]
      congr 1

/-- Running the `j`-th task of level `i` on the invariant state advances
the invariant by one task: the task's leader absorbs its block's group
contents in order, and the block's other leaders disappear. -/
theorem cat_task_step (B : Nat) (hB : 2 ≤ B) (frags : List String)
    (Cs : List Bytes) (fs0 : FS) (hnd : frags.Nodup) (hmem : "" ∉ frags)
    (hlen : Cs.length = frags.length) (i j : Nat)
    (hj : j < cdiv frags.length (B ^ (i + 1))) :
    cat (midState fs0 frags Cs B i j) (taskFiles B frags i j) =
      some (midState fs0 frags Cs B i (j + 1)) := by
  have hpow : 0 < B ^ i := Nat.pos_pow_of_pos i (by omega)
  have hpow1 : 0 < B ^ (i + 1) := Nat.pos_pow_of_pos (i + 1) (by omega)
  have hm0lt : j * B ^ (i + 1) < frags.length := (lt_cdiv_iff hpow1 _ j).mp hj
  have hf0mem : frags.getD (j * B ^ (i + 1)) "" ∈ frags := by
    rw [List.getD_eq_getElem frags "" hm0lt]
    exact List.getElem_mem hm0lt
  have hf0ne : frags.getD (j * B ^ (i + 1)) "" ≠ "" := fun he =>
    hmem (he ▸ hf0mem)
  have hidx0 : frags.indexOf (frags.getD (j * B ^ (i + 1)) "") =
      j * B ^ (i + 1) := indexOf_getD frags hnd _ hm0lt
  have hsplit : ∀ k, j * B ^ (i + 1) + (k + 1) * B ^ i =
      (j * B + (k + 1)) * B ^ i := by
    intro k
    rw [pow_succ]
    ring
  have hg_real : ∀ k, j * B ^ (i + 1) + (k + 1) * B ^ i < frags.length →
      frags.getD (j * B ^ (i + 1) + (k + 1) * B ^ i) "" ∈ frags ∧
        frags.getD (j * B ^ (i + 1) + (k + 1) * B ^ i) "" ≠ "" ∧
        frags.indexOf (frags.getD (j * B ^ (i + 1) + (k + 1) * B ^ i) "") =
          j * B ^ (i + 1) + (k + 1) * B ^ i := by
    intro k hk
    have h1 : frags.getD (j * B ^ (i + 1) + (k + 1) * B ^ i) "" ∈ frags := by
      rw [List.getD_eq_getElem frags "" hk]
      exact List.getElem_mem hk
    exact ⟨h1, fun he => hmem (he ▸ h1), indexOf_getD frags hnd _ hk⟩
  have hg_phantom : ∀ k, frags.length ≤ j * B ^ (i + 1) + (k + 1) * B ^ i →
      frags.getD (j * B ^ (i + 1) + (k + 1) * B ^ i) "" = "" := fun k hk =>
    List.getD_eq_default _ _ hk
  have hf0rest : frags.getD (j * B ^ (i + 1)) "" ∉
      (List.range (B - 1)).map
        (fun k => frags.getD (j * B ^ (i + 1) + (k + 1) * B ^ i) "") := by
    intro hmem'
    rw [List.mem_map] at hmem'
    obtain ⟨k, hk, hgk⟩ := hmem'
    by_cases hreal : j * B ^ (i + 1) + (k + 1) * B ^ i < frags.length
    · obtain ⟨_, _, hik⟩ := hg_real k hreal
      rw [hgk, hidx0] at hik
      have : 0 < (k + 1) * B ^ i := by positivity
      omega
    · rw [hg_phantom k (by omega)] at hgk
      exact hf0ne hgk.symm
  have hndrest : (((List.range (B - 1)).map
      (fun k => frags.getD (j * B ^ (i + 1) + (k + 1) * B ^ i) "")).filter
        (fun x => decide (x ≠ ""))).Nodup := by
    rw [List.filter_map]
    apply List.Nodup.map_on
    · intro x hx y hy hxy
      rw [List.mem_filter] at hx hy
      have hxne : frags.getD (j * B ^ (i + 1) + (x + 1) * B ^ i) "" ≠ "" := by
        simpa using hx.2
      have hyne : frags.getD (j * B ^ (i + 1) + (y + 1) * B ^ i) "" ≠ "" := by
        simpa using hy.2
      have hxlt : j * B ^ (i + 1) + (x + 1) * B ^ i < frags.length := by
        by_contra hge
        exact hxne (hg_phantom x (by omega))
      have hylt : j * B ^ (i + 1) + (y + 1) * B ^ i < frags.length := by
        by_contra hge
        exact hyne (hg_phantom y (by omega))
      have hidxeq : j * B ^ (i + 1) + (x + 1) * B ^ i =
          j * B ^ (i + 1) + (y + 1) * B ^ i := by
        rw [← (hg_real x hxlt).2.2, ← (hg_real y hylt).2.2, hxy]
      have : (x + 1) * B ^ i = (y + 1) * B ^ i := by omega
      have := Nat.eq_of_mul_eq_mul_right hpow this
      omega
    · exact (List.nodup_range _).filter _
  have hmid0 : midState fs0 frags Cs B i j (frags.getD (j * B ^ (i + 1)) "") =
      some (G Cs (B ^ i) (j * B)) := by
    unfold midState
    rw [if_pos hf0mem, hidx0]
    unfold midVal
    have e0 : j * B ^ (i + 1) = (j * B) * B ^ i := by rw [pow_succ]; ring
    rw [e0, Nat.mul_mod_left, Nat.mul_div_cancel _ hpow, if_pos rfl,
      if_neg (lt_irrefl _)]
  rw [taskFiles_cons B (by omega) frags i j,
    cat_run (midState fs0 frags Cs B i j) _ _
      (by
        simp only [List.length_cons, List.length_map, List.length_range]
        omega)
      hf0ne (G Cs (B ^ i) (j * B)) hmid0 hf0rest hndrest]
  congr 1
  funext p
  by_cases hpf : p = frags.getD (j * B ^ (i + 1)) ""
  · rw [if_pos hpf, hpf]
    have hmapeq : ((List.range (B - 1)).map
        (fun k => frags.getD (j * B ^ (i + 1) + (k + 1) * B ^ i) "")).map
          (fun r => if r = "" then []
            else ((midState fs0 frags Cs B i j) r).getD []) =
        (List.range (B - 1)).map (fun k => G Cs (B ^ i) (j * B + (k + 1))) := by
      rw [List.map_map]
      apply List.map_congr_left
      intro k hk
      simp only [Function.comp]
      by_cases hreal : j * B ^ (i + 1) + (k + 1) * B ^ i < frags.length
      · obtain ⟨hmemk, hnek, hidxk⟩ := hg_real k hreal
        rw [if_neg hnek]
        unfold midState
        rw [if_pos hmemk, hidxk]
        unfold midVal
        rw [hsplit k, Nat.mul_mod_left, Nat.mul_div_cancel _ hpow, if_pos rfl,
          if_neg (by omega)]
        rfl
      · rw [if_pos (hg_phantom k (by omega))]
        refine (G_eq_nil_of_ge Cs (B ^ i) (j * B + (k + 1)) ?_).symm
        rw [hlen]
        calc frags.length ≤ j * B ^ (i + 1) + (k + 1) * B ^ i := by omega
        _ = (j * B + (k + 1)) * B ^ i := hsplit k
    rw [hmapeq, G_block Cs B (by omega) i j]
    unfold midState
    rw [if_pos hf0mem, hidx0]
    unfold midVal
    have e0 : j * B ^ (i + 1) = (j * B) * B ^ i := by rw [pow_succ]; ring
    rw [e0, Nat.mul_mod_left, Nat.mul_div_cancel _ hpow, if_pos rfl,
      if_pos (by
        have : j * B < (j + 1) * B := by
          have : (j + 1) * B = j * B + B := by ring
          omega
        exact this),
      Nat.mul_mod_left, if_pos rfl, Nat.mul_div_cancel _ (by omega : 0 < B)]
  · rw [if_neg hpf]
    by_cases hprest : p ∈ (List.range (B - 1)).map
        (fun k => frags.getD (j * B ^ (i + 1) + (k + 1) * B ^ i) "") ∧ p ≠ ""
    · rw [if_pos hprest]
      obtain ⟨hpmem, hpne⟩ := hprest
      rw [List.mem_map] at hpmem
      obtain ⟨k, hk, hgk⟩ := hpmem
      rw [List.mem_range] at hk
      have hreal : j * B ^ (i + 1) + (k + 1) * B ^ i < frags.length := by
        by_contra hge
        rw [hg_phantom k (by omega)] at hgk
        exact hpne hgk.symm
      obtain ⟨hmemk, hnek, hidxk⟩ := hg_real k hreal
      unfold midState
      rw [if_pos (hgk ▸ hmemk), ← hgk, hidxk]
      unfold midVal
      rw [hsplit k, Nat.mul_mod_left, Nat.mul_div_cancel _ hpow, if_pos rfl,
        if_pos (by
          have : (j + 1) * B = j * B + B := by ring
          omega),
        if_neg (by
          have h1 : (j * B + (k + 1)) % B = (k + 1) % B := by
            rw [Nat.add_comm, Nat.add_mul_mod_self_right]
          rw [h1, Nat.mod_eq_of_lt (by omega)]
          omega)]
    · rw [if_neg hprest]
      unfold midState
      by_cases hpfr : p ∈ frags
      · rw [if_pos hpfr, if_pos hpfr]
        apply midVal_succ_eq
        have hmlt : frags.indexOf p < frags.length :=
          List.indexOf_lt_length.mpr hpfr
        have hpm : frags.getD (frags.indexOf p) "" = p := getD_indexOf frags p hpfr
        by_cases hmod : frags.indexOf p % B ^ i = 0
        · right
          by_contra hcon
          push_neg at hcon
          obtain ⟨h1, h2⟩ := hcon
          have hq : frags.indexOf p = (frags.indexOf p / B ^ i) * B ^ i :=
            (Nat.div_mul_cancel (Nat.dvd_of_mod_eq_zero hmod)).symm
          have hexp : (j + 1) * B = j * B + B := by ring
          rw [hexp] at h2
          rcases Nat.eq_or_lt_of_le h1 with heq | hlt
          · apply hpf
            rw [← hpm, hq, ← heq]
            congr 1
            rw [pow_succ]
            ring
          · apply hprest
            refine ⟨?_, fun he => hmem (he ▸ hpfr)⟩
            rw [List.mem_map]
            refine ⟨frags.indexOf p / B ^ i - j * B - 1,
              List.mem_range.mpr (by omega), ?_⟩
            rw [hsplit,
              show j * B + (frags.indexOf p / B ^ i - j * B - 1 + 1) =
                frags.indexOf p / B ^ i by omega, ← hq]
            exact hpm
        · left
          exact hmod
      · rw [if_neg hpfr, if_neg hpfr]

/-- Running tasks `j, j+1, ...` of level `i` in order walks the
invariant to the end of the level. -/
theorem exec_level_from (B : Nat) (hB : 2 ≤ B) (frags : List String)
    (Cs : List Bytes) (fs0 : FS) (hnd : frags.Nodup) (hmem : "" ∉ frags)
    (hlen : Cs.length = frags.length) (i : Nat) :
    ∀ (c j : Nat), j + c = cdiv frags.length (B ^ (i + 1)) →
      execCats (midState fs0 frags Cs B i j)
        ((List.range' j c).map (taskFiles B frags i)) =
        some (midState fs0 frags Cs B i (cdiv frags.length (B ^ (i + 1)))) := by
  intro c
  induction c with
  | zero =>
      intro j hj
      rw [show j = cdiv frags.length (B ^ (i + 1)) by omega]
      rfl
  | succ c ih =>
      intro j hj
      rw [List.range'_succ, List.map_cons]
      show (match cat (midState fs0 frags Cs B i j) (taskFiles B frags i j) with
        | none => none
        | some fs' => execCats fs' ((List.range' (j + 1) c).map
            (taskFiles B frags i))) = _
      rw [cat_task_step B hB frags Cs fs0 hnd hmem hlen i j (by omega)]
      exact ih (j + 1) (by omega)

/-- After the last task of level `i`, the invariant is exactly the start
state of level `i + 1`. -/
theorem midState_level_transition (B : Nat) (hB : 2 ≤ B) (frags : List String)
    (Cs : List Bytes) (fs0 : FS) (i : Nat) :
    midState fs0 frags Cs B i (cdiv frags.length (B ^ (i + 1))) =
      midState fs0 frags Cs B (i + 1) 0 := by
  have hpow : 0 < B ^ i := Nat.pos_pow_of_pos i (by omega)
  have hpow1 : 0 < B ^ (i + 1) := Nat.pos_pow_of_pos (i + 1) (by omega)
  funext p
  unfold midState
  by_cases hp : p ∈ frags
  · rw [if_pos hp, if_pos hp]
    have hmlt : frags.indexOf p < frags.length := List.indexOf_lt_length.mpr hp
    unfold midVal
    by_cases hmod : frags.indexOf p % B ^ i = 0
    · rw [if_pos hmod]
      have hqlt : frags.indexOf p / B ^ i <
          cdiv frags.length (B ^ (i + 1)) * B := by
        have h1 : frags.indexOf p / B ^ i < cdiv frags.length (B ^ i) := by
          rw [lt_cdiv_iff hpow]
          calc frags.indexOf p / B ^ i * B ^ i ≤ frags.indexOf p :=
            Nat.div_mul_le_self _ _
          _ < frags.length := hmlt
        have h2 : cdiv frags.length (B ^ i) ≤
            cdiv frags.length (B ^ (i + 1)) * B := by
          rw [cdiv_le_iff hpow]
          have h3 := (cdiv_le_iff hpow1 frags.length
            (cdiv frags.length (B ^ (i + 1)))).mp (le_refl _)
          calc frags.length ≤
              cdiv frags.length (B ^ (i + 1)) * B ^ (i + 1) := h3
          _ = cdiv frags.length (B ^ (i + 1)) * B * B ^ i := by
              rw [pow_succ]; ring
        omega
      rw [if_pos hqlt]
      have hmodmul : frags.indexOf p % B ^ (i + 1) =
          frags.indexOf p % B ^ i + B ^ i * (frags.indexOf p / B ^ i % B) := by
        rw [pow_succ]
        exact Nat.mod_mul
      by_cases hmodB : frags.indexOf p / B ^ i % B = 0
      · rw [if_pos hmodB]
        have e1 : frags.indexOf p % B ^ (i + 1) = 0 := by
          rw [hmodmul, hmod, hmodB]
          simp
        rw [if_pos e1, if_neg (by rw [Nat.zero_mul]; exact Nat.not_lt_zero _)]
        congr 1
        rw [pow_succ, ← Nat.div_div_eq_div_mul]
      · rw [if_neg hmodB, if_neg (by
          rw [hmodmul, hmod]
          simp only [Nat.zero_add]
          intro hcon
          rcases Nat.mul_eq_zero.mp hcon with h | h
          · omega
          · exact hmodB h)]
    · rw [if_neg hmod, if_neg (by
        intro hcon
        apply hmod
        rw [← Nat.mod_mod_of_dvd (frags.indexOf p)
          (pow_dvd_pow B (by omega : i ≤ i + 1)), hcon, Nat.zero_mod])]
  · rw [if_neg hp, if_neg hp]

theorem G_one (Cs : List Bytes) (m : Nat) (hm : m < Cs.length) :
    G Cs 1 m = Cs.getD m [] := by
  unfold G
  rw [Nat.mul_one, List.drop_eq_getElem_cons hm, List.take_succ_cons,
    List.take_zero, List.getD_eq_getElem Cs [] hm]
  simp

/-- Before any task has run, the invariant state is the initial
filesystem. -/
theorem midState_zero (B : Nat) (frags : List String) (Cs : List Bytes)
    (fs0 : FS) (hnd : frags.Nodup) (hlen : Cs.length = frags.length)
    (hfs : ∀ m, m < frags.length → fs0 (frags.getD m "") = some (Cs.getD m [])) :
    midState fs0 frags Cs B 0 0 = fs0 := by
  funext p
  unfold midState
  by_cases hp : p ∈ frags
  · rw [if_pos hp]
    have hmlt : frags.indexOf p < frags.length := List.indexOf_lt_length.mpr hp
    unfold midVal
    rw [pow_zero, Nat.mod_one, if_pos rfl, Nat.div_one,
      if_neg (by rw [Nat.zero_mul]; exact Nat.not_lt_zero _),
      G_one Cs (frags.indexOf p) (by omega),
      ← hfs (frags.indexOf p) hmlt, getD_indexOf frags p hp]
  · rw [if_neg hp]

/-- After the last level, only the very first fragment remains and it
holds the entire file's bytes. -/
theorem midState_top (B : Nat) (hB : 2 ≤ B) (frags : List String)
    (Cs : List Bytes) (fs0 : FS) (hlen : Cs.length = frags.length)
    (H : Nat) (htop : cdiv frags.length (B ^ H) = 1) (p : String) :
    midState fs0 frags Cs B H 0 p =
      if p ∈ frags then
        (if frags.indexOf p = 0 then some Cs.flatten else none)
      else fs0 p := by
  have hpow : 0 < B ^ H := Nat.pos_pow_of_pos H (by omega)
  have hle : frags.length ≤ B ^ H := by
    have := (cdiv_le_iff hpow frags.length 1).mp (by omega)
    omega
  unfold midState
  by_cases hp : p ∈ frags
  · rw [if_pos hp, if_pos hp]
    have hmlt : frags.indexOf p < frags.length := List.indexOf_lt_length.mpr hp
    unfold midVal
    have hmod : frags.indexOf p % B ^ H = frags.indexOf p :=
      Nat.mod_eq_of_lt (by omega)
    by_cases hz : frags.indexOf p = 0
    · rw [hmod, if_pos hz, hz, Nat.zero_div,
        if_neg (by rw [Nat.zero_mul]; exact Nat.not_lt_zero _)]
      rw [if_pos rfl]
      unfold G
      rw [Nat.zero_mul, List.drop_zero, List.take_of_length_le (by omega)]
    · rw [hmod, if_neg hz, if_neg hz]
  · rw [if_neg hp, if_neg hp]

/-- Canonical execution of all levels, from the initial state to the
final state. -/
theorem exec_levels (B : Nat) (hB : 2 ≤ B) (frags : List String)
    (Cs : List Bytes) (fs0 : FS) (hnd : frags.Nodup) (hmem : "" ∉ frags)
    (hlen : Cs.length = frags.length) :
    ∀ (c i0 : Nat), i0 + c = numLevels B frags.length →
      execCats (midState fs0 frags Cs B i0 0)
        (((List.range' i0 c).map
          (fun i => (List.range (cdiv frags.length (B ^ (i + 1)))).map
            (taskFiles B frags i))).flatten) =
        some (midState fs0 frags Cs B (numLevels B frags.length) 0) := by
  intro c
  induction c with
  | zero =>
      intro i0 hi0
      rw [show i0 = numLevels B frags.length by omega]
      rfl
  | succ c ih =>
      intro i0 hi0
      rw [List.range'_succ, List.map_cons, List.flatten_cons, execCats_append]
      have hlevel := exec_level_from B hB frags Cs fs0 hnd hmem hlen i0
        (cdiv frags.length (B ^ (i0 + 1))) 0 (by omega)
      rw [← List.range_eq_range'] at hlevel
      rw [hlevel, midState_level_transition B hB frags Cs fs0 i0]
      exact ih (i0 + 1) (by omega)

theorem schedule_mem (B n : Nat) (a : Nat × Nat) :
    a ∈ schedule B n ↔
      a.1 < numLevels B n ∧ a.2 < cdiv n (B ^ (a.1 + 1)) := by
  unfold schedule
  rw [List.mem_flatten]
  constructor
  · rintro ⟨l, hl, hal⟩
    rw [List.mem_map] at hl
    obtain ⟨i, hi, rfl⟩ := hl
    rw [List.mem_range] at hi
    rw [List.mem_map] at hal
    obtain ⟨j, hj, rfl⟩ := hal
    rw [List.mem_range] at hj
    exact ⟨hi, hj⟩
  · rintro ⟨h1, h2⟩
    refine ⟨(List.range (cdiv n (B ^ (a.1 + 1)))).map (fun j => (a.1, j)),
      List.mem_map.mpr ⟨a.1, List.mem_range.mpr h1, rfl⟩,
      List.mem_map.mpr ⟨a.2, List.mem_range.mpr h2, rfl⟩⟩

theorem schedule_nodup (B n : Nat) : (schedule B n).Nodup := by
  unfold schedule
  rw [List.nodup_flatten]
  constructor
  · intro l hl
    rw [List.mem_map] at hl
    obtain ⟨i, _, rfl⟩ := hl
    exact (List.nodup_range _).map_on
      (fun x _ y _ hxy => congrArg Prod.snd hxy)
  · rw [List.pairwise_map]
    refine (List.pairwise_lt_range _).imp ?_
    intro i i' hii
    intro a ha hb
    rw [List.mem_map] at ha hb
    obtain ⟨j, _, rfl⟩ := ha
    obtain ⟨j', _, heq⟩ := hb
    have := congrArg Prod.fst heq
    simp at this
    omega

theorem schedule_pairwise (B n : Nat) :
    (schedule B n).Pairwise (fun a b => ¬ prec B b a) := by
  unfold schedule
  rw [List.pairwise_flatten]
  constructor
  · intro l hl
    rw [List.mem_map] at hl
    obtain ⟨i, _, rfl⟩ := hl
    rw [List.pairwise_map]
    apply List.Pairwise.imp ?_ (List.pairwise_lt_range _)
    intro j j' _
    intro hcon
    exact absurd hcon.1 (lt_irrefl i)
  · rw [List.pairwise_map]
    apply List.Pairwise.imp ?_ (List.pairwise_lt_range _)
    intro i i' hii
    intro a ha b hb
    rw [List.mem_map] at ha hb
    obtain ⟨j, _, rfl⟩ := ha
    obtain ⟨j', _, rfl⟩ := hb
    intro hcon
    have := hcon.1
    simp at this
    omega

/-- Tasks unrelated by the descendant relation have disjoint real files:
a real file determines its task's block index at every level. -/
theorem schedule_incomp_disjoint (B : Nat) (hB : 2 ≤ B) (frags : List String)
    (hnd : frags.Nodup) (a b : Nat × Nat) (hab : a ≠ b)
    (hpab : ¬ prec B a b) (hpba : ¬ prec B b a) (p : String) (hp : p ≠ "")
    (hpa : p ∈ taskFiles B frags a.1 a.2) :
    p ∉ taskFiles B frags b.1 b.2 := by
  intro hpb
  obtain ⟨m, hmlt, hpm, hdiv⟩ :=
    taskFiles_mem_index B hB frags a.1 a.2 p hp hpa
  obtain ⟨m', hmlt', hpm', hdiv'⟩ :=
    taskFiles_mem_index B hB frags b.1 b.2 p hp hpb
  have hmm : m = m' := by
    rw [List.getD_eq_getElem frags "" hmlt] at hpm
    rw [List.getD_eq_getElem frags "" hmlt'] at hpm'
    exact (hnd.getElem_inj_iff).mp (hpm ▸ hpm')
  subst hmm
  rcases Nat.lt_trichotomy a.1 b.1 with hlt | heq | hgt
  · apply hpab
    refine ⟨hlt, ?_⟩
    rw [← hdiv, ← hdiv', Nat.div_div_eq_div_mul, ← pow_add]
    congr 2
    omega
  · apply hab
    have : a.2 = b.2 := by
      rw [← hdiv, ← hdiv', heq]
    exact Prod.ext heq this
  · apply hpba
    refine ⟨hgt, ?_⟩
    rw [← hdiv, ← hdiv', Nat.div_div_eq_div_mul, ← pow_add]
    congr 2
    omega

/-- Freshness of every level index below `numLevels`. -/
theorem level_fresh (B : Nat) (hB : 2 ≤ B) (n : Nat) (hn : 1 ≤ n) (i : Nat)
    (hi : i < numLevels B n) : i = 0 ∨ 2 ≤ cdiv n (B ^ i) := by
  cases i with
  | zero => exact Or.inl rfl
  | succ i' =>
      right
      exact (numLevels_spec B hB n n (le_refl _) hn).2 i' hi

/-- On schedule members, the scheduler's stored file lists coincide with
their closed form. -/
theorem taskFilesOf_eq (B : Nat) (hB : 2 ≤ B) (frags : List String)
    (hmem : "" ∉ frags) (hn : 1 ≤ frags.length) (a : Nat × Nat)
    (ha : a ∈ schedule B frags.length) :
    (levelList B frags a.1).getD a.2 [] = taskFiles B frags a.1 a.2 := by
  rw [schedule_mem] at ha
  exact levelList_getD B hB frags hmem a.1
    (level_fresh B hB frags.length hn a.1 ha.1) a.2 ha.2

/-! ### The reconstruction driver (`reconstruct`, src/main.rs lines 248-258)

After the reduction loop, `reconstruct` pops the single surviving task,
joins it, and renames its leader file (`last_task.files.first()`) to the
base filename. -/

/-- `std::fs::rename(src, dst)`: the content stored under `src` moves to
`dst`; `src` ceases to exist. -/
def renameFS (fs : FS) (src dst : String) : FS :=
  fun p => if p = dst then fs src else if p = src then none else fs p

/-- The leader file of the single task surviving the reduction loop
(`last_task.files.first()`). -/
def topLeader (B : Nat) (frags : List String) : String :=
  ((reduceLevels B (mkLeafTasks B frags)).getLastD []).headD ""

/-- The file list owned by task `(i, j)` in the scheduler's level
structure. -/
def taskFilesOf (B : Nat) (frags : List String) (a : Nat × Nat) : List String :=
  (levelList B frags a.1).getD a.2 []

/-- One whole run of `reconstruct` for a base filename: the tasks'
concatenations take effect in the schedule order `σ`, then the surviving
leader is renamed to the base filename. -/
def reconstructRun (B : Nat) (file : String) (frags : List String) (fs0 : FS)
    (σ : List (Nat × Nat)) : Option FS :=
  match execCats fs0 (σ.map (taskFilesOf B frags)) with
  | none => none
  | some fs' => some (renameFS fs' (topLeader B frags) file)

/-- The surviving leader is the very first fragment. -/
theorem topLeader_eq (B : Nat) (hB : 2 ≤ B) (frags : List String)
    (hne : frags ≠ []) (hmem : "" ∉ frags) :
    topLeader B frags = frags.getD 0 "" := by
  have hn : 1 ≤ frags.length := List.length_pos.mpr hne
  set H := numLevels B frags.length with hH
  have hHpos : 1 ≤ H := numLevels_pos B frags.length
  have htop : cdiv frags.length (B ^ H) = 1 :=
    (numLevels_spec B hB frags.length frags.length (le_refl _) hn).1
  have hfresh : H - 1 = 0 ∨ 2 ≤ cdiv frags.length (B ^ (H - 1)) :=
    level_fresh B hB frags.length hn (H - 1) (by omega)
  have hlen1 : (levelList B frags (H - 1)).length = 1 := by
    rw [levelList_length B hB frags hmem (H - 1) hfresh,
      show H - 1 + 1 = H by omega]
    exact htop
  have hred : reduceLevels B (mkLeafTasks B frags) = levelList B frags (H - 1) :=
    reduceLevels_eq_levelList B hB frags (H - 1) (by omega)
  unfold topLeader
  rw [hred, levelList_eq_chunkPad B hB frags hmem (H - 1) hfresh]
  have hcount : cdiv (leadersAt B frags (H - 1)).length B = 1 := by
    rw [leadersAt_length,
      cdiv_cdiv (Nat.pos_pow_of_pos (H - 1) (by omega)) (by omega), ← pow_succ,
      show H - 1 + 1 = H by omega]
    exact htop
  unfold chunkPad
  rw [hcount, show List.range 1 = [0] from rfl, List.map_cons, List.map_nil,
    List.getLastD_cons, List.getLastD_nil]
  have hheadD : ∀ (l : List String) (d : String), l.headD d = l.getD 0 d := by
    intro l d
    cases l <;> rfl
  rw [hheadD, getD_range_map, if_pos (by omega), show 0 * B + 0 = 0 by ring]
  unfold leadersAt
  rw [getD_range_map, if_pos (by
      have h0 := cdiv_eq_zero_iff
        (Nat.pos_pow_of_pos (H - 1) (show 0 < B by omega)) frags.length
      omega),
    Nat.zero_mul]

/-- Master run theorem: under any dependency-respecting schedule, one
reconstruction run succeeds and produces exactly the filesystem in which
the base file carries the concatenation of all fragment contents, all
fragment paths are gone, and everything else is untouched. -/
theorem reconstructRun_master (B : Nat) (hB : 2 ≤ B) (file : String)
    (frags : List String) (Cs : List Bytes) (fs0 : FS)
    (hne : frags ≠ []) (hnd : frags.Nodup) (hmem : "" ∉ frags)
    (hfile : file ∉ frags) (hlen : Cs.length = frags.length)
    (hfs : ∀ m, m < frags.length → fs0 (frags.getD m "") = some (Cs.getD m []))
    (σ : List (Nat × Nat)) (hσp : σ.Perm (schedule B frags.length))
    (hσdep : σ.Pairwise (fun a b => ¬ prec B b a)) :
    reconstructRun B file frags fs0 σ = some (fun p =>
      if p = file then some Cs.flatten
      else if p ∈ frags then none
      else fs0 p) := by
  have hn : 1 ≤ frags.length := List.length_pos.mpr hne
  have hmapσ : σ.map (taskFilesOf B frags) =
      σ.map (fun a => taskFiles B frags a.1 a.2) :=
    List.map_congr_left (fun a ha =>
      taskFilesOf_eq B hB frags hmem hn a (hσp.subset ha))
  have hinv : execCats fs0 (σ.map (fun a => taskFiles B frags a.1 a.2)) =
      execCats fs0 ((schedule B frags.length).map
        (fun a => taskFiles B frags a.1 a.2)) :=
    execCats_linext _ (prec B) σ (schedule B frags.length) fs0 hσp
      (hσp.symm.nodup (schedule_nodup B frags.length)) hσdep
      (schedule_pairwise B frags.length)
      (fun a _ b _ hab h1 h2 =>
        schedule_incomp_disjoint B hB frags hnd a b hab h1 h2)
  have hcanon : (schedule B frags.length).map
      (fun a => taskFiles B frags a.1 a.2) =
      ((List.range' 0 (numLevels B frags.length)).map
        (fun i => (List.range (cdiv frags.length (B ^ (i + 1)))).map
          (taskFiles B frags i))).flatten := by
    unfold schedule
    rw [List.map_flatten, List.map_map, ← List.range_eq_range']
    congr 1
    apply List.map_congr_left
    intro i _
    simp only [Function.comp]
    rw [List.map_map]
    rfl
  have hexec := exec_levels B hB frags Cs fs0 hnd hmem hlen
    (numLevels B frags.length) 0 (by omega)
  rw [midState_zero B frags Cs fs0 hnd hlen hfs] at hexec
  unfold reconstructRun
  rw [hmapσ, hinv, hcanon, hexec]
  dsimp only
  congr 1
  funext p
  unfold renameFS
  rw [topLeader_eq B hB frags hne hmem]
  have htop := (numLevels_spec B hB frags.length frags.length (le_refl _) hn).1
  have hmtop := fun q => midState_top B hB frags Cs fs0 hlen
    (numLevels B frags.length) htop q
  have hf0mem : frags.getD 0 "" ∈ frags := by
    rw [List.getD_eq_getElem frags "" hn]
    exact List.getElem_mem hn
  have hidx0 : frags.indexOf (frags.getD 0 "") = 0 := indexOf_getD frags hnd 0 hn
  by_cases hpfile : p = file
  · rw [if_pos hpfile, if_pos hpfile, hmtop]
    rw [if_pos hf0mem, if_pos hidx0]
  · rw [if_neg hpfile, if_neg hpfile]
    by_cases hpsrc : p = frags.getD 0 ""
    · rw [if_pos hpsrc, if_pos (hpsrc ▸ hf0mem)]
    · rw [if_neg hpsrc, hmtop]
      by_cases hpfr : p ∈ frags
      · rw [if_pos hpfr, if_pos hpfr, if_neg (by
          intro h0
          apply hpsrc
          rw [← getD_indexOf frags p hpfr, h0])]
      · rw [if_neg hpfr, if_neg hpfr]

/-- C1: for every non-empty, lexicographically sorted fragment list and
every batch size in `2..=100`, a reconstruction run yields a file at the
base path whose byte content is the concatenation of the fragments'
contents in exactly that order — for every dependency-respecting thread
schedule `σ`, so the result is independent of thread scheduling: the
merge tree built over the reversed stack (leaf batches of up to `B`
fragments, then repeatedly reversed and folded levels of parents over
child leaders) preserves the original byte order. -/
theorem C1_order_preserved (B : Nat) (hB2 : 2 ≤ B) (hB100 : B ≤ 100)
    (file : String) (frags : List String) (Cs : List Bytes) (fs0 : FS)
    (hne : frags ≠ []) (hsorted : frags.Sorted (· ≤ ·)) (hnd : frags.Nodup)
    (hmem : "" ∉ frags) (hfile : file ∉ frags)
    (hlen : Cs.length = frags.length)
    (hfs : ∀ m, m < frags.length → fs0 (frags.getD m "") = some (Cs.getD m []))
    (σ : List (Nat × Nat)) (hσp : σ.Perm (schedule B frags.length))
    (hσdep : σ.Pairwise (fun a b => ¬ prec B b a)) :
    ∃ fs', reconstructRun B file frags fs0 σ = some fs' ∧
      fs' file = some Cs.flatten := by
  refine ⟨_, reconstructRun_master B hB2 file frags Cs fs0 hne hnd hmem hfile
    hlen hfs σ hσp hσdep, ?_⟩
  rw [if_pos rfl]

theorem C1_order_preserved_witness :
    ∃ fs', reconstructRun 2 "f" ["a0", "a1", "a2"]
        (fun p => if p = "a0" then some [0] else if p = "a1" then some [1]
          else if p = "a2" then some [2] else none)
        (schedule 2 3) = some fs' ∧
      fs' "f" = some ([[0], [1], [2]] : List Bytes).flatten :=
  C1_order_preserved 2 (by omega) (by omega) "f" ["a0", "a1", "a2"]
    [[0], [1], [2]] _ (by simp)
    (by
      simp only [List.sorted_cons, List.mem_cons, List.not_mem_nil, or_false]
      refine ⟨?_, ⟨?_, fun b hb => absurd hb (by simp), List.sorted_nil⟩⟩
      · rintro b (rfl | rfl)
        · exact le_of_lt (String.lt_iff_toList_lt.mpr (by decide))
        · exact le_of_lt (String.lt_iff_toList_lt.mpr (by decide))
      · rintro b rfl
        exact le_of_lt (String.lt_iff_toList_lt.mpr (by decide)))
    (by decide) (by decide) (by decide)
    (by decide) (by decide) (schedule 2 3) (List.Perm.refl _)
    (schedule_pairwise 2 3)

/-- C2: after a successful reconstruction run — under any
dependency-respecting schedule — none of the original fragment paths
exists any longer and exactly one file exists at the target base path:
every non-leader fragment was deleted by `cat`, every intermediate
leader was absorbed and deleted by its parent's `cat`, and the single
surviving top leader was renamed to the base filename; no other path
was touched. -/
theorem C2_fragments_consumed (B : Nat) (hB2 : 2 ≤ B) (hB100 : B ≤ 100)
    (file : String) (frags : List String) (Cs : List Bytes) (fs0 : FS)
    (hne : frags ≠ []) (hnd : frags.Nodup)
    (hmem : "" ∉ frags) (hfile : file ∉ frags)
    (hlen : Cs.length = frags.length)
    (hfs : ∀ m, m < frags.length → fs0 (frags.getD m "") = some (Cs.getD m []))
    (σ : List (Nat × Nat)) (hσp : σ.Perm (schedule B frags.length))
    (hσdep : σ.Pairwise (fun a b => ¬ prec B b a)) :
    ∃ fs', reconstructRun B file frags fs0 σ = some fs' ∧
      (∀ p ∈ frags, fs' p = none) ∧ (fs' file).isSome = true ∧
      (∀ p, p ≠ file → p ∉ frags → fs' p = fs0 p) := by
  refine ⟨_, reconstructRun_master B hB2 file frags Cs fs0 hne hnd hmem hfile
    hlen hfs σ hσp hσdep, fun p hp => ?_, ?_, fun p hp1 hp2 => ?_⟩
  · rw [if_neg (fun he : p = file => hfile (he ▸ hp)), if_pos hp]
  · rw [if_pos rfl]
    rfl
  · rw [if_neg hp1, if_neg hp2]

theorem C2_fragments_consumed_witness :
    ∃ fs', reconstructRun 2 "f" ["a0", "a1", "a2"]
        (fun p => if p = "a0" then some [0] else if p = "a1" then some [1]
          else if p = "a2" then some [2] else none)
        (schedule 2 3) = some fs' ∧
      (∀ p ∈ (["a0", "a1", "a2"] : List String), fs' p = none) ∧
      ( fs' "f").isSome = true ∧
      (∀ p, p ≠ "f" → p ∉ (["a0", "a1", "a2"] : List String) →
        fs' p = (fun q => if q = "a0" then some [0] else if q = "a1" then some [1]
          else if q = "a2" then some [2] else none) p) :=
  C2_fragments_consumed 2 (by omega) (by omega) "f" ["a0", "a1", "a2"]
    [[0], [1], [2]] _ (by simp) (by decide) (by decide) (by decide) (by decide)
    (by decide) (schedule 2 3) (List.Perm.refl _) (schedule_pairwise 2 3)
